import Mathlib

/-!
# rpmdl: a verification development

`rpmdl` (`src/main.go`) downloads an RPM package and its dependencies.  It creates
`$PWD/out/<package-name>`, asks `dnf repoquery` for the dependency names, runs `dnf download`
once per name and finally moves every `*.rpm` entry of the working directory into the output
directory.

The program is embedded as state-passing functions over a `World` (filesystem, working
directory of the process, and the logs of what the program did), parameterised by an `Env`
that decides what the external commands do and which system calls fail.  The functions of
`main.go` keep their names.  The Go library functions they call (`strings.Fields`,
`filepath.Join`, `filepath.Clean`, `filepath.Base`, `filepath.Match`, `filepath.Glob`,
`os.MkdirAll`, `os.Rename`) are transcribed from the Go standard library for Unix.

Conventions of the model:
* a Go string is the list of its characters (valid UTF-8 is assumed);
* the filesystem is a list of nodes, each a resolved absolute path with its kind; there are no
  symbolic or hard links, and a path string is resolved lexically;
* an external command may leave any filesystem behind; the properties that need more say so
  (`keepsDirs`);
* `Stat`, `Open` and the reading of a directory may fail (permissions, I/O errors), as the
  environment decides; `filepath.Glob` ignores these errors and returns fewer or no names.
-/

namespace Rpmdl

/-! ## Strings -/

/-- Go `string`, as the list of its characters. -/
abbrev Str := List Char

/-- Go `strings.asciiSpace`: the six ASCII white space bytes. -/
def asciiSpace (c : Char) : Bool :=
  c.toNat == 0x09 || c.toNat == 0x0A || c.toNat == 0x0B || c.toNat == 0x0C || c.toNat == 0x0D
    || c.toNat == 0x20

/-- Go `unicode.IsSpace`: the Latin-1 switch, and the `White_Space` table above Latin-1. -/
def isSpace (c : Char) : Bool :=
  if c.toNat ≤ 0xFF then
    c.toNat == 0x09 || c.toNat == 0x0A || c.toNat == 0x0B || c.toNat == 0x0C || c.toNat == 0x0D
      || c.toNat == 0x20 || c.toNat == 0x85 || c.toNat == 0xA0
  else
    c.toNat == 0x1680 || (0x2000 ≤ c.toNat && c.toNat ≤ 0x200A) || c.toNat == 0x2028
      || c.toNat == 0x2029 || c.toNat == 0x202F || c.toNat == 0x205F || c.toNat == 0x3000

/-- The scanning loop shared by `strings.Fields` (ASCII path) and `strings.FieldsFunc`: the
second argument is the field being read (`none` when between fields, else its characters in
reverse); a field is emitted when a separator or the end of the input follows it. -/
def fieldsLoop (f : Char → Bool) : List Char → Option (List Char) → List Str
  | [], none => []
  | [], some cur => [cur.reverse]
  | c :: rest, none => if f c then fieldsLoop f rest none else fieldsLoop f rest (some [c])
  | c :: rest, some cur =>
      if f c then cur.reverse :: fieldsLoop f rest none else fieldsLoop f rest (some (c :: cur))

/-- Go `strings.Fields`: when some byte is not ASCII it is `FieldsFunc(s, unicode.IsSpace)`,
otherwise the ASCII fast path. -/
def Fields (s : Str) : List Str :=
  if s.any (fun c => 0x80 ≤ c.toNat) then fieldsLoop isSpace s none
  else fieldsLoop asciiSpace s none

/-- Go `strings.Join`. -/
def stringsJoin (elems : List Str) (sep : Str) : Str := sep.intercalate elems

/-! ## `path/filepath` (Unix) -/

/-- Go `filepath.Separator`. -/
def Separator : Char := '/'

/-- The backtracking of `Clean` at a `..` element, on the output buffer held in reverse:
after the first `out.w--` the buffer is cut back while `out.w > dotdot` and the character at
`out.w` is not a separator. -/
def backtrack (dotdot : Nat) : List Char → List Char
  | [] => []
  | c :: rb => if dotdot < rb.length && c != Separator then backtrack dotdot rb else rb

/-- Where the reading loop of `Clean` stands: at the start of a path element, inside the copy
loop of a real element, or between the two increments of `r += 2` of a `..` element. -/
inductive CleanMode
  | boundary
  | copying
  | skip
  deriving DecidableEq, Repr

/-- The main loop of `filepath.Clean` over the unread part `path[r:]`, with the output buffer
in reverse and the index `dotdot`. -/
def cleanLoop (rooted : Bool) : CleanMode → List Char → List Char → Nat → List Char
  | _, [], out, _ => out
  | .skip, _ :: rest, out, dd => cleanLoop rooted .boundary rest out dd
  | .copying, c :: rest, out, dd =>
      if c = Separator then cleanLoop rooted .boundary rest out dd
      else cleanLoop rooted .copying rest (c :: out) dd
  | .boundary, c :: rest, out, dd =>
      if c = Separator then
        -- empty path element
        cleanLoop rooted .boundary rest out dd
      else if c = '.' ∧ (rest = [] ∨ rest.head? = some Separator) then
        -- . element
        cleanLoop rooted .boundary rest out dd
      else if c = '.' ∧ rest.head? = some '.' ∧
          (rest.tail = [] ∨ rest.tail.head? = some Separator) then
        -- .. element: remove to last separator
        if dd < out.length then
          cleanLoop rooted .skip rest (backtrack dd out) dd
        else if !rooted then
          let out1 := if 0 < out.length then Separator :: out else out
          cleanLoop rooted .skip rest ('.' :: '.' :: out1) (out1.length + 2)
        else
          cleanLoop rooted .skip rest out dd
      else
        -- real path element: add slash if needed, copy element
        let out1 :=
          if (rooted && out.length != 1) || (!rooted && out.length != 0) then Separator :: out
          else out
        cleanLoop rooted .copying rest (c :: out1) dd

/-- Go `filepath.Clean`. -/
def Clean (path : Str) : Str :=
  match path with
  | [] => ['.']
  | c :: rest =>
    let out :=
      if c = Separator then cleanLoop true .boundary rest [Separator] 1
      else cleanLoop false .boundary (c :: rest) [] 0
    if out = [] then ['.'] else out.reverse

/-- Go `filepath.Join`: the elements from the first non-empty one on, joined by the separator
and cleaned. -/
def Join : List Str → Str
  | [] => []
  | e :: es => if e ≠ [] then Clean (stringsJoin (e :: es) [Separator]) else Join es

/-- Go `filepath.Base`. -/
def Base (path : Str) : Str :=
  if path = [] then ['.']
  else
    let stripped := path.reverse.dropWhile (fun c => c == Separator)
    if stripped = [] then [Separator]
    else (stripped.takeWhile (fun c => c != Separator)).reverse

/-- Go `filepath.Split`: directory part (with its final separator) and file part. -/
def Split (path : Str) : Str × Str :=
  let file := (path.reverse.takeWhile (fun c => c != Separator)).reverse
  (path.take (path.length - file.length), file)

/-- Errors of the model. -/
inductive Err
  | badPattern
  | enoent
  | enotdir
  | eisdir
  | einval
  | enotempty
  | eexist
  | ebusy
  | eacces
  | eio
  | failed (code : Nat)
  | wrapped (context : String) (cause : Err)
  deriving DecidableEq, Repr

/-- Go `filepath.scanChunk`, the scan after the leading stars: the chunk read so far is in
reverse; the result is the chunk and the rest of the pattern. -/
def scanChunkLoop : Bool → List Char → List Char → Str × Str
  | _, [], acc => (acc.reverse, [])
  | inrange, c :: rest, acc =>
      if c = '\\' then
        match rest with
        | [] => (('\\' :: acc).reverse, [])
        | d :: rest1 => scanChunkLoop inrange rest1 (d :: '\\' :: acc)
      else if c = '[' then scanChunkLoop true rest (c :: acc)
      else if c = ']' then scanChunkLoop false rest (c :: acc)
      else if c = '*' then
        if !inrange then (acc.reverse, c :: rest) else scanChunkLoop inrange rest (c :: acc)
      else scanChunkLoop inrange rest (c :: acc)

/-- Go `filepath.scanChunk`: `(star, chunk, rest)`. -/
def scanChunk (pattern : Str) : Bool × Str × Str :=
  (pattern.head? == some '*', scanChunkLoop false (pattern.dropWhile (fun c => c == '*')) [])

/-- Go `filepath.getEsc`: one possibly escaped character of a character class. -/
def getEsc (chunk : Str) : Except Err (Char × Str) :=
  match chunk with
  | [] => .error .badPattern
  | c :: rest =>
    if c = '-' ∨ c = ']' then .error .badPattern
    else
      match (if c = '\\' then rest else c :: rest) with
      | [] => .error .badPattern
      | r :: nchunk => if nchunk = [] then .error .badPattern else .ok (r, nchunk)

/-- The range loop of a character class in `matchChunk`: returns the chunk after the closing
bracket and whether some range contained `r`. -/
def classLoop : Nat → Str → Char → Bool → Nat → Except Err (Str × Bool)
  | 0, _, _, _, _ => .error .badPattern
  | fuel + 1, chunk, r, m, nrange =>
    if chunk.head? = some ']' ∧ 0 < nrange then .ok (chunk.tail, m)
    else
      match getEsc chunk with
      | .error e => .error e
      | .ok (lo, chunk1) =>
        match (if chunk1.head? = some '-' then getEsc chunk1.tail else .ok (lo, chunk1)) with
        | .error e => .error e
        | .ok (hi, chunk2) =>
          classLoop fuel chunk2 r (m || (decide (lo ≤ r) && decide (r ≤ hi))) (nrange + 1)

/-- The loop of Go `filepath.matchChunk` over the chunk; `failed` records that the match has
failed, after which the chunk is only checked for being well formed. -/
def matchChunkLoop : Nat → Str → Str → Bool → Except Err (Option Str)
  | 0, _, _, _ => .error .badPattern
  | _ + 1, [], s, failed => .ok (if failed then none else some s)
  | fuel + 1, c :: chunk, s, failed0 =>
    let failed := failed0 || s.isEmpty
    if c = '[' then
      let r := if failed then Char.ofNat 0 else s.headD (Char.ofNat 0)
      let s1 := if failed then s else s.tail
      let negated := chunk.head? == some '^'
      let chunk1 := if negated then chunk.tail else chunk
      match classLoop (chunk1.length + 1) chunk1 r false 0 with
      | .error e => .error e
      | .ok (chunk2, m) => matchChunkLoop fuel chunk2 s1 (failed || (m == negated))
    else if c = '?' then
      if !failed then matchChunkLoop fuel chunk s.tail (s.head? == some Separator)
      else matchChunkLoop fuel chunk s failed
    else if c = '\\' then
      match chunk with
      | [] => .error .badPattern
      | d :: chunk1 =>
        if !failed then matchChunkLoop fuel chunk1 s.tail (s.head? != some d)
        else matchChunkLoop fuel chunk1 s failed
    else
      if !failed then matchChunkLoop fuel chunk s.tail (s.head? != some c)
      else matchChunkLoop fuel chunk s failed

/-- Go `filepath.matchChunk`: `.ok (some rest)` when the chunk matches the beginning of `s`,
`.ok none` when it does not, an error when the chunk is malformed. -/
def matchChunk (chunk s : Str) : Except Err (Option Str) :=
  matchChunkLoop (chunk.length + 1) chunk s false

/-- The loop of `Match` that tries the chunk after skipping `i+1` bytes of the name, never
skipping a separator; `last` says that no pattern is left after the chunk. -/
def matchStarLoop (chunk : Str) (last : Bool) : Str → Except Err (Option Str)
  | [] => .ok none
  | c :: rest =>
    if c = Separator then .ok none
    else
      match matchChunk chunk rest with
      | .error e => .error e
      | .ok (some t) => if last && t ≠ [] then matchStarLoop chunk last rest else .ok (some t)
      | .ok none => matchStarLoop chunk last rest

/-- The end of Go `filepath.Match` when the name does not match: before `false` is returned
without error, the remainder of the pattern is checked for being well formed. -/
def checkRest : Nat → Str → Except Err Bool
  | 0, _ => .error .badPattern
  | _ + 1, [] => .ok false
  | fuel + 1, c :: pat =>
    match matchChunk (scanChunk (c :: pat)).2.1 [] with
    | .error e => .error e
    | .ok _ => checkRest fuel (scanChunk (c :: pat)).2.2

/-- The `Pattern:` loop of Go `filepath.Match`. -/
def matchLoop : Nat → Str → Str → Except Err Bool
  | 0, _, _ => .error .badPattern
  | _ + 1, [], name => .ok name.isEmpty
  | fuel + 1, c :: pat, name =>
    match scanChunk (c :: pat) with
    | (star, chunk, rest) =>
      if star && chunk = [] then
        -- Trailing * matches rest of string unless it has a /.
        .ok (!name.contains Separator)
      else
        -- Look for match at current position.
        match matchChunk chunk name with
        | .error e => .error e
        | .ok r =>
          match (match r with | some t => if t = [] ∨ rest ≠ [] then some t else none
                              | none => none) with
          | some t => matchLoop fuel rest t
          | none =>
            if star then
              -- Look for match skipping i+1 bytes.
              match matchStarLoop chunk (rest = []) name with
              | .error e => .error e
              | .ok (some t) => matchLoop fuel rest t
              | .ok none => checkRest fuel rest
            else checkRest fuel rest

/-- Go `filepath.Match`. -/
def Match (pattern name : Str) : Except Err Bool :=
  matchLoop (pattern.length + 1) pattern name

/-- Go `filepath.hasMeta` (Unix): the pattern contains one of the characters `*?[\`. -/
def hasMeta (path : Str) : Bool :=
  path.any (fun c => c == '*' || c == '?' || c == '[' || c == '\\')

/-- Go `filepath.cleanGlobPath`. -/
def cleanGlobPath (path : Str) : Str :=
  if path = [] then ['.']
  else if path = [Separator] then path
  else path.dropLast

/-! ## The filesystem and the process -/

/-- A resolved absolute path: the names from the root down. -/
abbrev Path := List Str

/-- What a filesystem node is. -/
inductive Kind
  | file
  | dir
  deriving DecidableEq, Repr

/-- A message of the program, on standard output or through `log`. -/
inductive Msg
  | outputDirCreated (dir : Str)
  | downloadFailed (pkg : Str) (e : Err)
  | downloaded (pkg : Str)
  | moveFailed (file dir : Str) (e : Err)
  | moved (file dir : Str)
  | fatalCreate (e : Err)
  | fatalResolve (pkg : Str) (e : Err)
  | fatalGlob (e : Err)
  deriving DecidableEq, Repr

/-- State of the world the program runs in. -/
structure World where
  /-- the current directory of the process -/
  cwd : Path
  /-- the nodes of the filesystem (the root directory always exists) -/
  nodes : List (Path × Kind)
  /-- the argument vectors of the external commands started so far, oldest first -/
  execLog : List (List Str)
  /-- the `(oldpath, newpath)` of the renames attempted so far, oldest first -/
  renameLog : List (Str × Str)
  /-- the messages printed so far, oldest first -/
  output : List Msg

/-- What an external command did: its error (non-zero exit, or it could not be started), its
standard output, and the filesystem it left behind. -/
structure ExecResult where
  err : Option Err
  stdout : Str
  nodes : List (Path × Kind)

/-- The environment: the behaviour of the external commands and the failures the operating
system injects into system calls (permissions, devices, ...).  Each may depend on the whole
world, hence on how many commands ran before. -/
structure Env where
  exec : List Str → World → ExecResult
  getwdErr : World → Option Err
  mkdirErr : Path → World → Option Err
  renameErr : Path → Path → World → Option Err
  /-- the failure of `Stat` or `Lstat` on a path, for a reason other than its absence -/
  statErr : Path → World → Option Err
  /-- the failure of `Open` on a directory -/
  openErr : Path → World → Option Err
  /-- the names `Readdirnames` does not deliver because reading the directory fails part-way
  (empty when the read succeeds) -/
  readdirLost : Path → World → List Str

/-- How the process ends: normally (exit status 0) or through `log.Fatalf` (exit status 1). -/
inductive Outcome
  | done
  | fatal (msg : Msg)
  deriving DecidableEq, Repr

/-- Exit status of the process. -/
def Outcome.exitCode : Outcome → Nat
  | .done => 0
  | .fatal _ => 1

/-- The path `p` is a directory. -/
def isDir (w : World) (p : Path) : Bool := p == [] || w.nodes.contains (p, Kind.dir)

/-- The path `p` is a regular file. -/
def isFile (w : World) (p : Path) : Bool := !isDir w p && w.nodes.contains (p, Kind.file)

/-- The path `p` exists. -/
def pathExists (w : World) (p : Path) : Bool := isDir w p || isFile w p

/-- Lexical walk of the path elements `segs` from the directory `p`: empty and `.` elements
stay, `..` goes up (staying at the root), a name goes down.  This is how the kernel resolves
them when the directories on the way exist and none is a symbolic link. -/
def walk : Path → List Str → Path
  | p, [] => p
  | p, seg :: segs =>
    if seg = [] ∨ seg = ['.'] then walk p segs
    else if seg = ['.', '.'] then walk p.dropLast segs
    else walk (p ++ [seg]) segs

/-- Resolution of a path string by a process whose current directory is `cwd`. -/
def resolve (cwd : Path) (s : Str) : Path :=
  match s with
  | [] => cwd
  | c :: rest =>
    if c = Separator then walk [] (rest.splitOnP (fun x => x == Separator))
    else walk cwd ((c :: rest).splitOnP (fun x => x == Separator))

/-- The string of an absolute path. -/
def render (p : Path) : Str := Separator :: stringsJoin p [Separator]

/-- The names of the entries of directory `d` in the filesystem, each once; a path that is
not a directory has none. -/
def dirEntries (w : World) (d : Path) : List Str :=
  if isDir w d then
    (w.nodes.filterMap (fun n =>
      if n.1 ≠ [] ∧ n.1.dropLast = d then n.1.getLast? else none)).dedup
  else []

/-- Go `(*File).Readdirnames(-1)` on the open directory `d`: the names of its entries, short
of those lost to a read error (the error itself is dropped by the caller, `filepath.glob`). -/
def Readdirnames (E : Env) (w : World) (d : Path) : List Str :=
  (dirEntries w d).filter (fun n => n ∉ E.readdirLost d w)

/-- Go `os.Getwd`. -/
def Getwd (E : Env) (w : World) : Except Err Str :=
  match E.getwdErr w with
  | some e => .error e
  | none => .ok (render w.cwd)

/-- The system call `mkdir` on a resolved path. -/
def Mkdir (E : Env) (p : Path) (w : World) : World × Option Err :=
  match E.mkdirErr p w with
  | some e => (w, some e)
  | none =>
    if pathExists w p then (w, some .eexist)
    else if !isDir w p.dropLast then (w, some .enoent)
    else ({ w with nodes := (p, Kind.dir) :: w.nodes }, none)

/-- Go `os.MkdirAll` on a resolved path given in reverse (last name first): when `Stat`
succeeds, success at once if the path is a directory and `ENOTDIR` if it is something else;
otherwise the parent first and then `Mkdir`, whose failure is forgiven if `Lstat` then finds
the directory. -/
def mkdirAllRev (E : Env) : List Str → World → World × Option Err
  | [], w => (w, none)
  | n :: parent, w =>
    -- Fast path: if we can tell whether path is a directory or file, stop.
    if (E.statErr (n :: parent).reverse w).isNone && isDir w (n :: parent).reverse then
      (w, none)
    else if (E.statErr (n :: parent).reverse w).isNone && isFile w (n :: parent).reverse then
      (w, some .enotdir)
    else
      -- Slow path: make sure parent exists and then call Mkdir for path.
      match mkdirAllRev E parent w with
      | (w1, some e) => (w1, some e)
      | (w1, none) =>
        match Mkdir E (n :: parent).reverse w1 with
        | (w2, some e) =>
          if (E.statErr (n :: parent).reverse w2).isNone && isDir w2 (n :: parent).reverse then
            (w2, none)
          else (w2, some e)
        | (w2, none) => (w2, none)

/-- Go `os.MkdirAll`: the parents of the path are the initial segments of its resolution. -/
def MkdirAll (E : Env) (path : Str) (w : World) : World × Option Err :=
  mkdirAllRev E (resolve w.cwd path).reverse w

/-- The filesystem after the directory `src` has been moved to `dst`: an empty directory at
`dst` is replaced, and every node at or below `src` is carried over. -/
def moveTree (src dst : Path) (nodes : List (Path × Kind)) : List (Path × Kind) :=
  (nodes.filter (fun n => n ≠ (dst, Kind.dir))).map (fun n =>
    if src.isPrefixOf n.1 then (dst ++ n.1.drop src.length, n.2) else n)

/-- The system call `rename` on resolved paths: the new filesystem, or the error.  It fails
when the source does not exist, when the parent of the target is not a directory, when the
target is an ancestor of the source (hence a non-empty directory), when a directory would be
moved below itself or onto a file or a non-empty directory, and when a file would be moved
onto a directory.  A rename of an existing path onto itself does nothing. -/
def sysRename (w : World) (src dst : Path) : Except Err (List (Path × Kind)) :=
  if src = [] ∨ dst = [] then .error .ebusy
  else if !isDir w dst.dropLast then .error .enoent
  else if src = dst then (if pathExists w src then .ok w.nodes else .error .enoent)
  else if isDir w src then
    if src.isPrefixOf dst then .error .einval
    else if dst.isPrefixOf src then .error .enotempty
    else if isFile w dst then .error .enotdir
    else if isDir w dst && w.nodes.any (fun n => dst.isPrefixOf n.1 && n.1 != dst) then
      .error .enotempty
    else .ok (moveTree src dst w.nodes)
  else if isFile w src then
    if isDir w dst || dst.isPrefixOf src then .error .eisdir
    else
      .ok ((dst, Kind.file) ::
        w.nodes.filter (fun n => n ≠ (src, Kind.file) ∧ n ≠ (dst, Kind.file)))
  else .error .enoent

/-- Go `os.Rename`; the attempt is logged.  When `Lstat` finds the new name to be a directory
the call fails before the system call is made: with the error of `Lstat(oldname)` if that
fails, and with `EEXIST` unless the two names are different names of one directory.
Otherwise it fails when the environment says so or when the system call does. -/
def Rename (E : Env) (oldpath newpath : Str) (w : World) : World × Option Err :=
  let w0 := { w with renameLog := w.renameLog ++ [(oldpath, newpath)] }
  if (E.statErr (resolve w.cwd newpath) w).isNone && isDir w (resolve w.cwd newpath) &&
      ((E.statErr (resolve w.cwd oldpath) w).isSome || !pathExists w (resolve w.cwd oldpath)) then
    (w0, some ((E.statErr (resolve w.cwd oldpath) w).getD .enoent))
  else if (E.statErr (resolve w.cwd newpath) w).isNone && isDir w (resolve w.cwd newpath) &&
      (newpath == oldpath || resolve w.cwd newpath != resolve w.cwd oldpath) then
    (w0, some .eexist)
  else
    match E.renameErr (resolve w.cwd oldpath) (resolve w.cwd newpath) w with
    | some e => (w0, some e)
    | none =>
      match sysRename w (resolve w.cwd oldpath) (resolve w.cwd newpath) with
      | .error e => (w0, some e)
      | .ok nodes => ({ w0 with nodes := nodes }, none)

/-- Go `filepath.glob`: the entries of directory `dir` whose name matches `pattern`, joined to
`dir`, appended to `matches`.  The errors of `Stat`, `Open` and `Readdirnames` are ignored:
after the first two, and if `dir` is no directory, `matches` is returned as it is; after the
third, the names read before the error are used. -/
def glob (E : Env) (dir pattern : Str) (w : World) (mtchs : List Str) :
    Except Err (List Str) :=
  if (E.statErr (resolve w.cwd dir) w).isSome then .ok mtchs -- ignore I/O error
  else if !isDir w (resolve w.cwd dir) then .ok mtchs -- ignore I/O error
  else if (E.openErr (resolve w.cwd dir) w).isSome then .ok mtchs -- ignore I/O error
  else
    ((Readdirnames E w (resolve w.cwd dir)).insertionSort (fun a b => a ≤ b)).foldlM
      (fun m n =>
        match Match pattern n with
        | .error e => .error e
        | .ok matched => .ok (if matched then m ++ [Join [dir, n]] else m)) mtchs

/-- Go `filepath.globWithLimit`, the first argument counting the levels of recursion left. -/
def globWithLimit (E : Env) : Nat → Str → World → Except Err (List Str)
  | 0, _, _ => .error .badPattern
  | fuel + 1, pattern, w =>
    -- Check pattern is well-formed.
    match Match pattern [] with
    | .error e => .error e
    | .ok _ =>
      if !hasMeta pattern then
        .ok (if (E.statErr (resolve w.cwd pattern) w).isNone &&
            pathExists w (resolve w.cwd pattern) then [pattern] else [])
      else
        let dir := cleanGlobPath (Split pattern).1
        let file := (Split pattern).2
        if !hasMeta dir then glob E dir file w []
        else if dir = pattern then .error .badPattern
        else
          match globWithLimit E fuel dir w with
          | .error e => .error e
          | .ok m => m.foldlM (fun acc d => glob E d file w acc) []

/-- Go `filepath.Glob`. -/
def Glob (E : Env) (pattern : Str) (w : World) : Except Err (List Str) :=
  globWithLimit E 10000 pattern w

/-! ## The program (`src/main.go`) -/

/-- Start of an external command (`exec.Command(...).Output()` / `.Run()`): logged, then the
environment decides. -/
def runCommand (E : Env) (argv : List Str) (w : World) : World × Str × Option Err :=
  let r := E.exec argv w
  ({ w with nodes := r.nodes, execLog := w.execLog ++ [argv] }, r.stdout, r.err)

/-- Print of a message (`fmt.Printf`, `log.Printf`). -/
def emit (w : World) (m : Msg) : World := { w with output := w.output ++ [m] }

/-- `createOutputDirectory` creates `$PWD/out/<package-name>` for storing RPM files. -/
def createOutputDirectory (E : Env) (packageName : Str) (w : World) :
    World × Except Err Str :=
  match Getwd E w with
  | .error e => (w, .error (.wrapped "error getting current working directory" e))
  | .ok cwd =>
    let outputDir := Join [cwd, "out".toList, packageName]
    match MkdirAll E outputDir w with
    | (w1, some e) => (w1, .error (.wrapped "error creating output directory" e))
    | (w1, none) => (w1, .ok outputDir)

/-- The command line of the resolver. -/
def repoqueryArgv (pkgName : Str) : List Str :=
  ["dnf".toList, "repoquery".toList, "--resolve".toList, "--requires".toList, pkgName]

/-- The command line of the fetcher. -/
def downloadArgv (pkgName : Str) : List Str :=
  ["dnf".toList, "download".toList, pkgName]

/-- `resolveDependencies` uses dnf repoquery to fetch the package dependencies. -/
def resolveDependencies (E : Env) (pkgName : Str) (w : World) :
    World × Except Err (List Str) :=
  match runCommand E (repoqueryArgv pkgName) w with
  | (w1, _, some e) => (w1, .error e)
  | (w1, output, none) => (w1, .ok (Fields output))

/-- `downloadPackage` downloads the given package. -/
def downloadPackage (E : Env) (pkgName : Str) (w : World) : World × Option Err :=
  match runCommand E (downloadArgv pkgName) w with
  | (w1, _, err) => (w1, err)

/-- `downloadPackages` iterates over packages and downloads each using dnf download. -/
def downloadPackages (E : Env) : List Str → World → World
  | [], w => w
  | pkg :: rest, w =>
    match downloadPackage E pkg w with
    | (w1, some e) => downloadPackages E rest (emit w1 (.downloadFailed pkg e))
    | (w1, none) => downloadPackages E rest (emit w1 (.downloaded pkg))

/-- The loop of `moveRPMFiles` over the matched files. -/
def moveLoop (E : Env) (outputDir : Str) : List Str → World → World
  | [], w => w
  | rpmFile :: rest, w =>
    let destPath := Join [outputDir, Base rpmFile]
    match Rename E rpmFile destPath w with
    | (w1, some e) => moveLoop E outputDir rest (emit w1 (.moveFailed rpmFile outputDir e))
    | (w1, none) => moveLoop E outputDir rest (emit w1 (.moved rpmFile outputDir))

/-- `moveRPMFiles` searches for all RPM files in the current directory and moves them to
`outputDir`. -/
def moveRPMFiles (E : Env) (outputDir : Str) (w : World) : World × Outcome :=
  match Glob E "*.rpm".toList w with
  | .error e => (w, .fatal (.fatalGlob e))
  | .ok rpmFiles => (moveLoop E outputDir rpmFiles w, .done)

/-- The function `run` of `main.go`. -/
def run (E : Env) (packageName : Str) (w : World) : World × Outcome :=
  -- Create output directory at $PWD/out/<package-name>
  match createOutputDirectory E packageName w with
  | (w1, .error e) => (w1, .fatal (.fatalCreate e))
  | (w1, .ok outputDir) =>
    let w2 := emit w1 (.outputDirCreated outputDir)
    -- Resolve package dependencies using dnf repoquery.
    match resolveDependencies E packageName w2 with
    | (w3, .error e) => (w3, .fatal (.fatalResolve packageName e))
    | (w3, .ok deps) =>
      -- Download each dependency package to the current working directory (cache).
      let w4 := downloadPackages E deps w3
      -- Find all RPM files in the cache and move them to the output directory.
      moveRPMFiles E outputDir w4

/-! ## Notions used in the statements -/

deriving instance DecidableEq for Except

/-- A name that an entry of a directory can have: not empty, without separator, neither `.`
nor `..`. -/
def normalName (s : Str) : Prop := s ≠ [] ∧ Separator ∉ s ∧ s ≠ ['.'] ∧ s ≠ ['.', '.']

instance (s : Str) : Decidable (normalName s) := by unfold normalName; infer_instance

/-- A resolved path all of whose names are entry names. -/
def normalPath (p : Path) : Prop := ∀ s ∈ p, normalName s

instance (p : Path) : Decidable (normalPath p) := by unfold normalPath; infer_instance

/-- The elements of a path string: its pieces between separators. -/
def segments (s : Str) : List Str := s.splitOnP (fun x => x == Separator)

/-- The extension of package files. -/
def rpmExt : Str := ".rpm".toList

/-- The pattern `moveRPMFiles` passes to `filepath.Glob`. -/
def rpmPattern : Str := "*.rpm".toList

/-- The name matches the pattern (and the pattern is well formed). -/
def isMatch (pattern name : Str) : Bool :=
  match Match pattern name with
  | .ok b => b
  | .error _ => false

/-- The string `s` is the extension `.rpm` after a stem without separator. -/
def rpmName (s : Str) : Prop := ∃ stem, s = stem ++ rpmExt ∧ Separator ∉ stem

/-- The directory `d` can be listed: `Stat` and `Open` succeed on it and `Readdirnames` reads
it to the end. -/
def canList (E : Env) (w : World) (d : Path) : Prop :=
  E.statErr d w = none ∧ E.openErr d w = none ∧ E.readdirLost d w = []

instance (E : Env) (w : World) (d : Path) : Decidable (canList E w d) := by
  unfold canList; infer_instance

/-- The names `filepath.glob` goes through in directory `d`: none when `d` cannot be examined
or opened, else the names read, sorted. -/
def globNames (E : Env) (w : World) (d : Path) : List Str :=
  if (E.statErr d w).isSome then []
  else if !isDir w d then []
  else if (E.openErr d w).isSome then []
  else (Readdirnames E w d).insertionSort (fun a b => a ≤ b)

/-- The entries of the working directory that `Glob` returns for `*.rpm`, in its order. -/
def rpmEntries (E : Env) (w : World) : List Str :=
  (globNames E w w.cwd).filter (isMatch rpmPattern)

/-- External commands remove no directory. -/
def keepsDirs (E : Env) : Prop :=
  ∀ argv w p, (p, Kind.dir) ∈ w.nodes → (p, Kind.dir) ∈ (E.exec argv w).nodes

/-- What an operation on directories may change: it keeps the working directory and the log
of commands, and removes no directory. -/
def Keeps (w w1 : World) : Prop :=
  w1.cwd = w.cwd ∧ w1.execLog = w.execLog ∧ (∀ q, isDir w q = true → isDir w1 q = true)

/-- The path of the output directory: `out/<package-name>` walked from the working
directory. -/
def outputPath (w : World) (packageName : Str) : Path :=
  walk (w.cwd ++ ["out".toList]) (segments packageName)

/-- The world in which `run` starts the resolver, once `createOutputDirectory` has returned
`outputDir`. -/
def created (E : Env) (packageName : Str) (w : World) (outputDir : Str) : World :=
  emit (createOutputDirectory E packageName w).1 (.outputDirCreated outputDir)

/-- The world in which `run` starts the download loop. -/
def resolved (E : Env) (packageName : Str) (w : World) (outputDir : Str) : World :=
  (resolveDependencies E packageName (created E packageName w outputDir)).1

/-- The world in which `run` starts the relocation, after the downloads of `deps`. -/
def fetched (E : Env) (packageName : Str) (w : World) (outputDir : Str) (deps : List Str) :
    World :=
  downloadPackages E deps (resolved E packageName w outputDir)

/-- An environment for the examples: no system call fails; the resolver prints `stdout`, or
fails when `resolverFails`; `dnf download <name>` leaves `<name>.rpm` in the working directory,
or fails without effect when `name` is in `failing`. -/
def exampleEnv (stdout : Str) (failing : List Str) (resolverFails : Bool) : Env where
  exec := fun argv w =>
    match argv with
    | [_, _, name] =>
      if name ∈ failing then { err := some (.failed 1), stdout := [], nodes := w.nodes }
      else
        { err := none, stdout := [],
          nodes := (w.cwd ++ [name ++ ".rpm".toList], Kind.file) :: w.nodes }
    | _ =>
      if resolverFails then { err := some (.failed 1), stdout := [], nodes := w.nodes }
      else { err := none, stdout := stdout, nodes := w.nodes }
  getwdErr := fun _ => none
  mkdirErr := fun _ _ => none
  renameErr := fun _ _ _ => none
  statErr := fun _ _ => none
  openErr := fun _ _ => none
  readdirLost := fun _ _ => []

/-- The environment `exampleEnv` on a system where no directory can be opened for reading (as
for a working directory of mode 0300): `Open` fails with `EACCES`. -/
def unreadableEnv (stdout : Str) (failing : List Str) : Env :=
  { exampleEnv stdout failing false with openErr := fun _ _ => some .eacces }

/-- A world for the examples: the working directory `/w` holds `old.rpm` and `notes.txt`. -/
def exampleWorld : World where
  cwd := ["w".toList]
  nodes := [(["w".toList], Kind.dir), (["w".toList, "old.rpm".toList], Kind.file),
    (["w".toList, "notes.txt".toList], Kind.file)]
  execLog := []
  renameLog := []
  output := []

/-- A world for the examples in which the output directory of package `foo` exists already
and holds `notes.txt`, the working directory `/w` holding `old.rpm`. -/
def usedWorld : World where
  cwd := ["w".toList]
  nodes := [(["w".toList], Kind.dir), (["w".toList, "out".toList], Kind.dir),
    (["w".toList, "out".toList, "foo".toList], Kind.dir),
    (["w".toList, "out".toList, "foo".toList, "notes.txt".toList], Kind.file),
    (["w".toList, "old.rpm".toList], Kind.file)]
  execLog := []
  renameLog := []
  output := []

/-! ## `strings.Fields` -/

theorem asciiSpace_eq (c : Char) (h : c.toNat < 0x80) : asciiSpace c = isSpace c := by
  unfold asciiSpace isSpace
  have : c.toNat ≤ 0xFF := by omega
  have h1 : (c.toNat == 0x85) = false := by
    rw [beq_eq_false_iff_ne]; omega
  have h2 : (c.toNat == 0xA0) = false := by
    rw [beq_eq_false_iff_ne]; omega
  simp [this, h1, h2]

theorem fieldsLoop_congr (f g : Char → Bool) (s : List Char) (h : ∀ c ∈ s, f c = g c) (st) :
    fieldsLoop f s st = fieldsLoop g s st := by
  induction s generalizing st with
  | nil => cases st <;> rfl
  | cons c rest ih =>
    have hc : f c = g c := h c (by simp)
    have ih2 := fun st => ih (fun c hc => h c (by simp [hc])) st
    cases st <;> simp [fieldsLoop, hc, ih2]

theorem Fields_eq (s : Str) : Fields s = fieldsLoop isSpace s none := by
  unfold Fields
  split
  · rfl
  · rename_i h
    apply fieldsLoop_congr
    intro c hc
    apply asciiSpace_eq
    simp at h
    exact h c hc

theorem fieldsLoop_go (f : Char → Bool) (s : List Char) (st : Option (List Char))
    (hst : ∀ cur, st = some cur → cur ≠ []) :
    fieldsLoop f s st = (List.splitOnP.go f s (st.getD [])).filter (fun t => !t.isEmpty) := by
  induction s generalizing st with
  | nil =>
    cases st with
    | none => simp [fieldsLoop, List.splitOnP.go]
    | some cur => simp [fieldsLoop, List.splitOnP.go, hst cur rfl]
  | cons c rest ih =>
    cases st with
    | none =>
      by_cases hc : f c = true
      · simp [fieldsLoop, List.splitOnP.go, hc, ih none (by simp)]
      · simp [fieldsLoop, List.splitOnP.go, hc, ih (some [c]) (by simp)]
    | some cur =>
      by_cases hc : f c = true
      · simp [fieldsLoop, List.splitOnP.go, hc, ih none (by simp), hst cur rfl]
      · simp [fieldsLoop, List.splitOnP.go, hc, ih (some (c :: cur)) (by simp)]

theorem Fields_eq_splitOnP (s : Str) :
    Fields s = (s.splitOnP isSpace).filter (fun t => !t.isEmpty) := by
  rw [Fields_eq, fieldsLoop_go _ _ none (by simp)]
  rfl

theorem fieldsLoop_tokens (f : Char → Bool) (s : List Char) (st : Option (List Char))
    (hst : ∀ cur, st = some cur → cur ≠ [] ∧ ∀ c ∈ cur, f c = false) :
    ∀ t ∈ fieldsLoop f s st, t ≠ [] ∧ ∀ c ∈ t, f c = false := by
  induction s generalizing st with
  | nil =>
    cases st with
    | none => simp [fieldsLoop]
    | some cur => simpa [fieldsLoop] using hst cur rfl
  | cons c rest ih =>
    cases st with
    | none =>
      by_cases hc : f c = true
      · simpa [fieldsLoop, hc] using ih none (by simp)
      · simp only [fieldsLoop, hc]
        exact ih (some [c]) (by simpa using hc)
    | some cur =>
      have h0 := hst cur rfl
      by_cases hc : f c = true
      · simp only [fieldsLoop, hc, if_true, List.mem_cons]
        rintro t (rfl | ht)
        · simpa using h0
        · exact ih none (by simp) t ht
      · simp only [fieldsLoop, hc]
        refine ih (some (c :: cur)) ?_
        intro cur2 h2
        cases h2
        refine ⟨by simp, ?_⟩
        intro d hd
        rcases List.mem_cons.1 hd with rfl | hd
        · simpa using hc
        · exact h0.2 d hd

theorem fieldsLoop_join (f : Char → Bool) (s : List Char) (st : Option (List Char)) :
    (fieldsLoop f s st).flatten = (st.getD []).reverse ++ s.filter (fun c => !f c) := by
  induction s generalizing st with
  | nil => cases st <;> simp [fieldsLoop]
  | cons c rest ih =>
    cases st with
    | none =>
      by_cases hc : f c = true
      · simp [fieldsLoop, hc, ih]
      · simp [fieldsLoop, hc, ih]
    | some cur =>
      by_cases hc : f c = true
      · simp [fieldsLoop, hc, ih]
      · simp [fieldsLoop, hc, ih]

/-! ## `filepath.Clean` on absolute paths -/

theorem intercalate_snoc (sep : List Char) (p : List Str) (s : Str) :
    sep.intercalate (p ++ [s]) = if p = [] then s else sep.intercalate p ++ sep ++ s := by
  induction p with
  | nil => simp [List.intercalate]
  | cons a p ih =>
    cases p with
    | nil => simp [List.intercalate]
    | cons b p =>
      simp only [List.intercalate] at ih ⊢
      simp at ih ⊢
      simp [ih]

theorem render_nil : render ([] : Path) = [Separator] := by
  simp [render, stringsJoin, List.intercalate]

theorem render_snoc (p : Path) (s : Str) :
    render (p ++ [s]) = if p = [] then Separator :: s else render p ++ Separator :: s := by
  unfold render stringsJoin
  rw [intercalate_snoc]
  split <;> simp

theorem render_length (p : Path) (hp : normalPath p) (hne : p ≠ []) : 2 ≤ (render p).length := by
  induction p using List.reverseRecOn with
  | nil => exact absurd rfl hne
  | append_singleton p s _ =>
    rw [render_snoc]
    have hs : normalName s := hp s (by simp)
    have : 1 ≤ s.length := by
      rcases s with _ | ⟨c, s⟩
      · exact absurd rfl hs.1
      · simp
    split <;> simp <;> omega

theorem cleanLoop_copying (b : Bool) (xs rest out : List Char) (dd : Nat)
    (hxs : ∀ c ∈ xs, c ≠ Separator) (hrest : rest = [] ∨ ∃ r, rest = Separator :: r) :
    cleanLoop b .copying (xs ++ rest) out dd
      = cleanLoop b .boundary rest.tail (xs.reverse ++ out) dd := by
  induction xs generalizing out with
  | nil =>
    rcases hrest with rfl | ⟨r, rfl⟩
    · simp [cleanLoop]
    · simp [cleanLoop]
  | cons c xs ih =>
    have hc : c ≠ Separator := hxs c (by simp)
    rw [List.cons_append, cleanLoop, if_neg hc, ih _ (fun d hd => hxs d (by simp [hd]))]
    simp

theorem backtrack_mid (ys X : List Char) (hys : ∀ c ∈ ys, c ≠ Separator) (hX : 2 ≤ X.length) :
    backtrack 1 (ys ++ Separator :: X) = X := by
  induction ys with
  | nil => simp [backtrack]
  | cons c ys ih =>
    have hc : c ≠ Separator := hys c (by simp)
    have hcond : (decide (1 < (ys ++ Separator :: X).length) && c != Separator) = true := by
      simp [hc]; omega
    rw [List.cons_append, backtrack, if_pos hcond]
    exact ih (fun d hd => hys d (by simp [hd]))

theorem backtrack_root (ys : List Char) (hys : ∀ c ∈ ys, c ≠ Separator) (hne : ys ≠ []) :
    backtrack 1 (ys ++ [Separator]) = [Separator] := by
  induction ys with
  | nil => exact absurd rfl hne
  | cons c ys ih =>
    have hc : c ≠ Separator := hys c (by simp)
    cases ys with
    | nil => simp [backtrack]
    | cons d ys =>
      have hcond : (decide (1 < (d :: ys ++ [Separator]).length) && c != Separator) = true := by
        simp [hc]
      rw [List.cons_append, backtrack, if_pos hcond]
      exact ih (fun e he => hys e (by simp [he])) (by simp)

theorem rbuf_backtrack (p : Path) (s : Str) (hp : normalPath (p ++ [s])) :
    backtrack 1 (render (p ++ [s])).reverse = (render p).reverse := by
  have hs : normalName s := hp s (by simp)
  have hp0 : normalPath p := fun t ht => hp t (by simp [ht])
  have hsr : ∀ c ∈ s.reverse, c ≠ Separator := by
    intro c hc h
    exact hs.2.1 (h ▸ (List.mem_reverse.1 hc))
  rw [render_snoc]
  split
  · rename_i h
    subst h
    have : (Separator :: s).reverse = s.reverse ++ [Separator] := by simp
    rw [this, backtrack_root _ hsr (by simpa using hs.1)]
    rfl
  · rename_i h
    have : (render p ++ Separator :: s).reverse = s.reverse ++ Separator :: (render p).reverse := by
      simp
    rw [this, backtrack_mid _ _ hsr (by simpa using render_length p hp0 h)]

theorem cleanLoop_boundary_sep (b : Bool) (rest out : List Char) (dd : Nat)
    (hrest : rest = [] ∨ ∃ r, rest = Separator :: r) :
    cleanLoop b .boundary rest out dd = cleanLoop b .boundary rest.tail out dd := by
  rcases hrest with rfl | ⟨r, rfl⟩
  · rfl
  · simp [cleanLoop]

theorem head_sep (rest : List Char) (hrest : rest = [] ∨ ∃ r, rest = Separator :: r) :
    rest = [] ∨ rest.head? = some Separator := by
  rcases hrest with rfl | ⟨r, rfl⟩
  · exact Or.inl rfl
  · exact Or.inr rfl

theorem walk_single (p : Path) (seg : Str) :
    walk p [seg] = if seg = [] ∨ seg = ['.'] then p
      else if seg = ['.', '.'] then p.dropLast else p ++ [seg] := by
  simp only [walk]

theorem cleanLoop_real (b : Bool) (c : Char) (cs rest out : List Char) (dd : Nat)
    (hn : normalName (c :: cs)) (hrest : rest = [] ∨ ∃ r, rest = Separator :: r) :
    cleanLoop b .boundary (c :: cs ++ rest) out dd
      = cleanLoop b .boundary rest.tail
          (cs.reverse ++ c ::
            (if (b && out.length != 1) || (!b && out.length != 0) then Separator :: out
             else out)) dd := by
  obtain ⟨h0, hsep, h1, h2⟩ := hn
  have hseg : ∀ d ∈ c :: cs, d ≠ Separator := fun d hd h => hsep (h ▸ hd)
  have hc : c ≠ Separator := hseg c (by simp)
  have hcs : ∀ d ∈ cs, d ≠ Separator := fun d hd => hseg d (by simp [hd])
  have hhead : cs ++ rest = [] ∨ (cs ++ rest).head? = some Separator → cs = [] := by
    intro h
    rcases cs with _ | ⟨d, cs⟩
    · rfl
    · rcases h with h | h
      · simp at h
      · simp at h
        exact absurd h (hseg d (by simp))
  have hc2 : ¬ (c = '.' ∧ (cs ++ rest = [] ∨ (cs ++ rest).head? = some Separator)) := by
    rintro ⟨rfl, h⟩
    exact h1 (by rw [hhead h])
  have hc3 : ¬ (c = '.' ∧ (cs ++ rest).head? = some '.' ∧
      ((cs ++ rest).tail = [] ∨ (cs ++ rest).tail.head? = some Separator)) := by
    rintro ⟨rfl, hd, h⟩
    rcases cs with _ | ⟨d, cs⟩
    · rcases hrest with rfl | ⟨r, rfl⟩
      · simp at hd
      · simp [Separator] at hd
    · simp at hd
      subst hd
      have : cs = [] := by
        rcases cs with _ | ⟨e, cs⟩
        · rfl
        · rcases h with h | h
          · simp at h
          · simp at h
            exact absurd h (hseg e (by simp))
      exact h2 (by rw [this])
  rw [List.cons_append, cleanLoop, if_neg hc, if_neg hc2, if_neg hc3,
    cleanLoop_copying b cs rest _ dd hcs hrest]

theorem cleanLoop_segment (p : Path) (hp : normalPath p) (seg rest : List Char)
    (hseg : ∀ c ∈ seg, c ≠ Separator) (hrest : rest = [] ∨ ∃ r, rest = Separator :: r) :
    cleanLoop true .boundary (seg ++ rest) (render p).reverse 1
      = cleanLoop true .boundary rest.tail (render (walk p [seg])).reverse 1 := by
  have hsep : Separator ≠ '.' := by decide
  by_cases h0 : seg = []
  · subst h0
    simpa [walk_single] using cleanLoop_boundary_sep true rest _ 1 hrest
  by_cases h1 : seg = ['.']
  · subst h1
    have hc2 : ('.' : Char) = '.' ∧ (rest = [] ∨ rest.head? = some Separator) :=
      ⟨rfl, head_sep rest hrest⟩
    rw [List.singleton_append, cleanLoop, if_neg (Ne.symm hsep), if_pos hc2,
      cleanLoop_boundary_sep true rest _ 1 hrest]
    simp [walk_single]
  by_cases h2 : seg = ['.', '.']
  · subst h2
    have hc2 : ¬ (('.' : Char) = '.' ∧ ('.' :: rest = [] ∨ ('.' :: rest).head? = some Separator)) := by
      simp [Separator]
    have hc3 : ('.' : Char) = '.' ∧ ('.' :: rest).head? = some '.' ∧
        (('.' :: rest).tail = [] ∨ ('.' :: rest).tail.head? = some Separator) :=
      ⟨rfl, rfl, head_sep rest hrest⟩
    have hw : walk p [['.', '.']] = p.dropLast := by simp [walk_single]
    rw [show ['.', '.'] ++ rest = '.' :: '.' :: rest from rfl, cleanLoop, if_neg (Ne.symm hsep),
      if_neg hc2, if_pos hc3, hw]
    rcases List.eq_nil_or_concat p with hp0 | ⟨q, s, hq⟩
    · subst hp0
      have : ¬ (1 < (render ([] : Path)).reverse.length) := by simp [render_nil]
      rw [if_neg this]
      simp only [Bool.not_true, if_false, Bool.false_eq_true, cleanLoop, List.dropLast_nil]
      exact cleanLoop_boundary_sep true rest _ 1 hrest
    · rw [List.concat_eq_append] at hq
      subst hq
      have hlen : 1 < (render (q ++ [s])).reverse.length := by
        have := render_length (q ++ [s]) hp (by simp)
        simp; omega
      rw [if_pos hlen, rbuf_backtrack q s hp]
      simp only [cleanLoop, List.dropLast_concat]
      exact cleanLoop_boundary_sep true rest _ 1 hrest
  · obtain ⟨c, cs, rfl⟩ := List.exists_cons_of_ne_nil h0
    have hn : normalName (c :: cs) := ⟨h0, fun h => hseg _ h rfl, h1, h2⟩
    have hw : walk p [c :: cs] = p ++ [c :: cs] := by
      simp [walk_single, h1, h2]
    rw [cleanLoop_real true c cs rest _ 1 hn hrest, hw]
    congr 1
    rw [render_snoc]
    by_cases hp0 : p = []
    · subst hp0
      simp [render_nil]
    · have := render_length p hp hp0
      have hne : (render p).length ≠ 1 := by omega
      simp [hp0, hne]

theorem walk_cons (p : Path) (seg : Str) (more : List Str) :
    walk p (seg :: more) = walk (walk p [seg]) more := by
  simp only [walk]
  split
  · rfl
  · split <;> rfl

theorem walk_append (p : Path) (a b : List Str) : walk p (a ++ b) = walk (walk p a) b := by
  induction a generalizing p with
  | nil => rfl
  | cons seg a ih => rw [List.cons_append, walk_cons, ih, ← walk_cons]

theorem normalPath_walk_single (p : Path) (hp : normalPath p) (seg : Str)
    (hseg : ∀ c ∈ seg, c ≠ Separator) : normalPath (walk p [seg]) := by
  rw [walk_single]
  split
  · exact hp
  · rename_i h0
    split
    · exact fun s hs => hp s (List.mem_of_mem_dropLast hs)
    · rename_i h2
      intro s hs
      rcases List.mem_append.1 hs with hs | hs
      · exact hp s hs
      · simp at hs
        subst hs
        simp only [not_or] at h0
        exact ⟨h0.1, fun h => hseg _ h rfl, h0.2, h2⟩

theorem segments_split (rest : List Char) :
    (rest.dropWhile (fun c => c != Separator) = [] ∧
      segments rest = [rest.takeWhile (fun c => c != Separator)]) ∨
    (∃ r, rest.dropWhile (fun c => c != Separator) = Separator :: r ∧
      segments rest = rest.takeWhile (fun c => c != Separator) :: segments r) := by
  have htake : ∀ x ∈ rest.takeWhile (fun c => c != Separator), ¬ ((fun x => x == Separator) x = true) := by
    intro x hx
    have := List.mem_takeWhile_imp hx
    simpa using this
  have hsplit := List.takeWhile_append_dropWhile (fun c => c != Separator) rest
  rcases hd : rest.dropWhile (fun c => c != Separator) with _ | ⟨d, r⟩
  · left
    refine ⟨rfl, ?_⟩
    rw [hd, List.append_nil] at hsplit
    unfold segments
    conv_lhs => rw [← hsplit]
    exact List.splitOnP_eq_single _ _ htake
  · right
    have hdsep : d = Separator := by
      have := List.head_dropWhile_not (fun c => c != Separator) rest (by simp [hd])
      simp [hd] at this
      exact this
    subst hdsep
    refine ⟨r, rfl, ?_⟩
    rw [hd] at hsplit
    unfold segments
    conv_lhs => rw [← hsplit]
    exact List.splitOnP_first _ _ htake Separator (by simp) r

theorem cleanLoop_rooted (n : Nat) : ∀ (rest : List Char), rest.length ≤ n →
    ∀ (p : Path), normalPath p →
    cleanLoop true .boundary rest (render p).reverse 1
      = (render (walk p (segments rest))).reverse := by
  induction n with
  | zero =>
    intro rest hlen p hp
    have : rest = [] := List.length_eq_zero.1 (by omega)
    subst this
    simp [cleanLoop, segments, walk]
  | succ n ih =>
    intro rest hlen p hp
    have hsplit := List.takeWhile_append_dropWhile (fun c => c != Separator) rest
    have hseg : ∀ c ∈ rest.takeWhile (fun c => c != Separator), c ≠ Separator := by
      intro c hc
      simpa using List.mem_takeWhile_imp hc
    rcases segments_split rest with ⟨hd, hs⟩ | ⟨r, hd, hs⟩
    · have h := cleanLoop_segment p hp _ [] hseg (Or.inl rfl)
      rw [hd, List.append_nil] at hsplit
      rw [List.append_nil, hsplit] at h
      rw [h, hs, hsplit]
      simp [cleanLoop]
    · have h := cleanLoop_segment p hp _ (Separator :: r) hseg (Or.inr ⟨r, rfl⟩)
      rw [hd] at hsplit
      rw [hsplit] at h
      have hr : r.length ≤ n := by
        have := congrArg List.length hsplit
        simp at this
        omega
      rw [h, hs, walk_cons p _ (segments r), List.tail_cons]
      exact ih r hr _ (normalPath_walk_single p hp _ hseg)

theorem normalPath_walk (p : Path) (hp : normalPath p) (segs : List Str)
    (hsegs : ∀ s ∈ segs, ∀ c ∈ s, c ≠ Separator) : normalPath (walk p segs) := by
  induction segs generalizing p with
  | nil => exact hp
  | cons seg segs ih =>
    rw [walk_cons]
    exact ih _ (normalPath_walk_single p hp seg (hsegs seg (by simp)))
      (fun s hs => hsegs s (by simp [hs]))

theorem Clean_rooted (rest : List Char) :
    Clean (Separator :: rest) = render (walk [] (segments rest)) := by
  have h := cleanLoop_rooted rest.length rest le_rfl [] (by intro s hs; simp at hs)
  rw [render_nil] at h
  simp only [Clean, if_true, List.reverse_cons, List.reverse_nil, List.nil_append] at h ⊢
  rw [h]
  simp [render]

/-! ## Paths: `Join`, `Base` and resolution -/

theorem segments_append (a b : List Char) :
    segments (a ++ Separator :: b) = segments a ++ segments b := by
  unfold segments
  induction a with
  | nil => simp
  | cons c a ih =>
    rw [List.cons_append, List.splitOnP_cons, List.splitOnP_cons, ih]
    split
    · simp
    · have hne := List.splitOnP_ne_nil (fun x => x == Separator) a
      rcases h : List.splitOnP (fun x => x == Separator) a with _ | ⟨x, xs⟩
      · exact absurd h hne
      · simp [List.modifyHead]

theorem segments_intercalate (p : Path) (hp : normalPath p) (hne : p ≠ []) :
    segments ([Separator].intercalate p) = p := by
  exact List.splitOn_intercalate p Separator (fun l hl => (hp l hl).2.1) hne

theorem walk_normal (p q : Path) (hq : normalPath q) : walk p q = p ++ q := by
  induction q generalizing p with
  | nil => simp [walk]
  | cons s q ih =>
    have hs := hq s (by simp)
    rw [walk_cons, walk_single]
    have h01 : ¬ (s = [] ∨ s = ['.']) := by
      rintro (h | h)
      · exact hs.1 h
      · exact hs.2.2.1 h
    rw [if_neg h01, if_neg hs.2.2.2, ih _ (fun t ht => hq t (by simp [ht]))]
    simp

theorem walk_segments_render (p : Path) (hp : normalPath p) :
    walk [] (segments ([Separator].intercalate p)) = p := by
  by_cases h : p = []
  · subst h
    simp [List.intercalate, segments, walk]
  · rw [segments_intercalate p hp h, walk_normal _ _ hp]
    simp

theorem resolve_render (cwd p : Path) (hp : normalPath p) : resolve cwd (render p) = p := by
  simp only [render, stringsJoin, resolve, if_true]
  exact walk_segments_render p hp

theorem Clean_render_append (p : Path) (hp : normalPath p) (t : Str) :
    Clean (render p ++ Separator :: t) = render (walk p (segments t)) := by
  simp only [render, stringsJoin, List.cons_append]
  rw [Clean_rooted, segments_append, walk_append, walk_segments_render p hp]
  rfl

theorem render_ne_nil (p : Path) : render p ≠ [] := by simp [render]

theorem segments_out : segments "out".toList = ["out".toList] := by decide

theorem Join_out (cwd : Path) (hcwd : normalPath cwd) (packageName : Str) :
    Join [render cwd, "out".toList, packageName]
      = render (walk (cwd ++ ["out".toList]) (segments packageName)) := by
  have h : stringsJoin [render cwd, "out".toList, packageName] [Separator]
      = render cwd ++ Separator :: ("out".toList ++ Separator :: packageName) := by
    simp [stringsJoin, List.intercalate]
  rw [Join, if_pos (render_ne_nil cwd), h, Clean_render_append cwd hcwd, segments_append,
    segments_out, walk_append]
  congr 2

theorem Join_entry (d : Path) (hd : normalPath d) (f : Str) (hf : normalName f) :
    Join [render d, f] = render (d ++ [f]) := by
  have h : stringsJoin [render d, f] [Separator] = render d ++ Separator :: f := by
    simp [stringsJoin, List.intercalate]
  have hs : segments f = [f] := by
    unfold segments
    apply List.splitOnP_eq_single
    intro x hx h
    simp at h
    exact hf.2.1 (h ▸ hx)
  rw [Join, if_pos (render_ne_nil d), h, Clean_render_append d hd, hs,
    walk_normal _ _ (by intro s hs; simp at hs; exact hs ▸ hf)]

theorem Base_normal (f : Str) (hf : normalName f) : Base f = f := by
  obtain ⟨h0, hsep, -, -⟩ := hf
  have hall : ∀ c ∈ f.reverse, (c != Separator) = true := by
    intro c hc
    simp
    intro h
    exact hsep (h ▸ List.mem_reverse.1 hc)
  have hdrop : f.reverse.dropWhile (fun c => c == Separator) = f.reverse := by
    rcases hr : f.reverse with _ | ⟨c, r⟩
    · rfl
    · have := hall c (by rw [hr]; simp)
      have hb : (c == Separator) = false := by simpa using this
      rw [List.dropWhile_cons, hb]
      rfl
  have htake : f.reverse.takeWhile (fun c => c != Separator) = f.reverse :=
    List.takeWhile_eq_self_iff.2 hall
  simp only [Base, if_neg h0, hdrop, htake, List.reverse_reverse]
  simp [h0]

theorem resolve_entry (cwd : Path) (f : Str) (hf : normalName f) : resolve cwd f = cwd ++ [f] := by
  obtain ⟨c, cs, rfl⟩ := List.exists_cons_of_ne_nil hf.1
  have hc : c ≠ Separator := fun h => hf.2.1 (by simp [h])
  have hs : List.splitOnP (fun x => x == Separator) (c :: cs) = [c :: cs] := by
    apply List.splitOnP_eq_single
    intro x hx h
    simp at h
    exact hf.2.1 (h ▸ hx)
  simp only [resolve, if_neg hc, hs]
  exact walk_normal _ _ (by intro s hs; simp at hs; exact hs ▸ hf)

theorem resolve_dot (cwd : Path) : resolve cwd ['.'] = cwd := by
  simp [resolve, Separator, List.splitOnP, List.splitOnP.go, walk]

theorem Join_dot (n : Str) (hn : normalName n) : Join [['.'], n] = n := by
  obtain ⟨c, cs, rfl⟩ := List.exists_cons_of_ne_nil hn.1
  have h : stringsJoin [['.'], c :: cs] [Separator] = '.' :: Separator :: (c :: cs ++ []) := by
    simp [stringsJoin, List.intercalate]
  have hsep : ('.' : Char) ≠ Separator := by decide
  have hc2 : ('.' : Char) = '.' ∧ (Separator :: (c :: cs ++ []) = [] ∨
      (Separator :: (c :: cs ++ [])).head? = some Separator) := ⟨rfl, Or.inr rfl⟩
  rw [Join, if_pos (by simp), h]
  simp only [Clean, if_neg hsep]
  rw [cleanLoop, if_neg hsep, if_pos hc2, cleanLoop, if_pos rfl,
    cleanLoop_real false c cs [] [] 0 hn (Or.inl rfl)]
  simp [cleanLoop]

/-! ## `filepath.Match` on the pattern `*.rpm` -/

theorem matchChunk_rpm_hit (t : Str) : matchChunk rpmExt (rpmExt ++ t) = .ok (some t) := by
  simp [matchChunk, matchChunkLoop, rpmExt]

theorem matchChunk_rpm_miss (s : Str) (h : ¬ rpmExt <+: s) : matchChunk rpmExt s = .ok none := by
  rcases s with _ | ⟨a, _ | ⟨b, _ | ⟨c, _ | ⟨d, t⟩⟩⟩⟩
  · simp [matchChunk, matchChunkLoop, rpmExt]
  · by_cases ha : a = '.' <;> simp [matchChunk, matchChunkLoop, rpmExt, ha]
  · by_cases ha : a = '.' <;> by_cases hb : b = 'r' <;>
      simp [matchChunk, matchChunkLoop, rpmExt, ha, hb]
  · by_cases ha : a = '.' <;> by_cases hb : b = 'r' <;> by_cases hc : c = 'p' <;>
      simp [matchChunk, matchChunkLoop, rpmExt, ha, hb, hc]
  · by_cases ha : a = '.' <;> by_cases hb : b = 'r' <;> by_cases hc : c = 'p' <;>
      by_cases hd : d = 'm' <;>
      simp [matchChunk, matchChunkLoop, rpmExt, ha, hb, hc, hd] at h ⊢

theorem matchChunk_rpm (s : Str) :
    matchChunk rpmExt s = .ok (if rpmExt <+: s then some (s.drop 4) else none) := by
  by_cases h : rpmExt <+: s
  · obtain ⟨t, rfl⟩ := h
    rw [matchChunk_rpm_hit, if_pos (List.prefix_append _ _)]
    simp [rpmExt]
  · rw [matchChunk_rpm_miss s h, if_neg h]

theorem matchStarLoop_rpm (s : Str) :
    (matchStarLoop rpmExt true s = .ok (some []) ∧ ∃ stem, stem ≠ [] ∧ s = stem ++ rpmExt ∧ Separator ∉ stem) ∨
    (matchStarLoop rpmExt true s = .ok none ∧ ¬ ∃ stem, stem ≠ [] ∧ s = stem ++ rpmExt ∧ Separator ∉ stem) := by
  induction s with
  | nil =>
    right
    refine ⟨rfl, ?_⟩
    rintro ⟨stem, h0, h, -⟩
    rcases stem with _ | ⟨a, stem⟩
    · exact h0 rfl
    · simp at h
  | cons c rest ih =>
    by_cases hc : c = Separator
    · right
      refine ⟨by simp [matchStarLoop, hc], ?_⟩
      rintro ⟨stem, h0, h, hs⟩
      rcases stem with _ | ⟨a, stem⟩
      · exact h0 rfl
      · simp at h
        exact hs (by simp [← h.1, hc])
    · rw [matchStarLoop, if_neg hc, matchChunk_rpm]
      by_cases hp : rpmExt <+: rest
      · obtain ⟨t, rfl⟩ := hp
        rw [if_pos (List.prefix_append _ _)]
        by_cases ht : t = []
        · subst ht
          left
          refine ⟨by simp [rpmExt], [c], by simp, by simp, by simpa using Ne.symm hc⟩
        · have hd : List.drop 4 (rpmExt ++ t) = t := by simp [rpmExt]
          simp only [hd, Bool.true_and, ne_eq, ht, not_false_eq_true, decide_True, if_true]
          rcases ih with ⟨h1, stem, h0, h, hs⟩ | ⟨h1, hno⟩
          · left
            exact ⟨h1, c :: stem, by simp, by simp [h], by simp [hs, Ne.symm hc]⟩
          · right
            refine ⟨h1, ?_⟩
            rintro ⟨stem, h0, h, hs⟩
            rcases stem with _ | ⟨a, stem⟩
            · exact h0 rfl
            · simp at h
              apply hno
              refine ⟨stem, ?_, h.2, fun hm => hs (by simp [hm])⟩
              rintro rfl
              simp at h
              have := congrArg List.length h.2
              simp [rpmExt] at this
              exact ht this
      · rw [if_neg hp]
        rcases ih with ⟨h1, stem, h0, h, hs⟩ | ⟨h1, hno⟩
        · left
          exact ⟨h1, c :: stem, by simp, by simp [h], by simp [hs, Ne.symm hc]⟩
        · right
          refine ⟨h1, ?_⟩
          rintro ⟨stem, h0, h, hs⟩
          rcases stem with _ | ⟨a, stem⟩
          · exact h0 rfl
          · simp at h
            rcases stem with _ | ⟨b, stem⟩
            · exact hp ⟨[], by simp [h.2]⟩
            · exact hno ⟨b :: stem, by simp, h.2, fun hm => hs (by simp at hm ⊢; tauto)⟩

theorem scanChunk_rpm : scanChunk rpmPattern = (true, rpmExt, []) := by decide

theorem Match_rpm (s : Str) :
    (Match rpmPattern s = .ok true ∧ rpmName s) ∨ (Match rpmPattern s = .ok false ∧ ¬ rpmName s) := by
  have hm : Match rpmPattern s = matchLoop 5 ('*' :: rpmExt) s := rfl
  rw [hm, matchLoop]
  have hsc : scanChunk ('*' :: rpmExt) = (true, rpmExt, []) := scanChunk_rpm
  rw [hsc]
  have hne : ¬ ((true && decide (rpmExt = [])) = true) := by decide
  simp only [hne, if_false, matchChunk_rpm]
  by_cases hp : rpmExt <+: s
  · obtain ⟨t, rfl⟩ := hp
    rw [if_pos (List.prefix_append _ _)]
    have hd : List.drop 4 (rpmExt ++ t) = t := by simp [rpmExt]
    by_cases ht : t = []
    · subst ht
      left
      refine ⟨by simp [matchLoop, rpmExt], [], by simp, by simp⟩
    · simp only [hd, ht, ne_eq, not_true_eq_false, or_self, if_false, if_true, decide_True,
        Bool.false_eq_true]
      rcases matchStarLoop_rpm (rpmExt ++ t) with ⟨h1, stem, h0, h, hs⟩ | ⟨h1, hno⟩
      · left
        rw [h1]
        exact ⟨by simp [matchLoop], stem, h, hs⟩
      · right
        rw [h1]
        refine ⟨by simp [checkRest], ?_⟩
        rintro ⟨stem, h, hs⟩
        apply hno
        refine ⟨stem, ?_, h, hs⟩
        rintro rfl
        simp at h
        exact ht h
  · rw [if_neg hp]
    simp only [if_true, decide_True, Bool.false_eq_true, if_false]
    rcases matchStarLoop_rpm s with ⟨h1, stem, h0, h, hs⟩ | ⟨h1, hno⟩
    · left
      rw [h1]
      exact ⟨by simp [matchLoop], stem, h, hs⟩
    · right
      rw [h1]
      refine ⟨by simp [checkRest], ?_⟩
      rintro ⟨stem, h, hs⟩
      rcases stem with _ | ⟨a, stem⟩
      · exact hp ⟨[], by simp [h]⟩
      · exact hno ⟨a :: stem, by simp, h, hs⟩

theorem isMatch_rpm_iff (s : Str) : isMatch rpmPattern s = true ↔ rpmName s := by
  unfold isMatch
  rcases Match_rpm s with ⟨h, hn⟩ | ⟨h, hn⟩ <;> simp [h, hn]

theorem Match_rpm_eq (s : Str) : Match rpmPattern s = .ok (isMatch rpmPattern s) := by
  unfold isMatch
  rcases Match_rpm s with ⟨h, hn⟩ | ⟨h, hn⟩ <;> simp [h]

theorem rpmName_normal (s : Str) (h : rpmName s) : normalName s := by
  obtain ⟨stem, rfl, hs⟩ := h
  refine ⟨by simp [rpmExt], ?_, ?_, ?_⟩
  · intro hm
    rcases List.mem_append.1 hm with hm | hm
    · exact hs hm
    · revert hm
      decide
  · intro h
    have := congrArg List.length h
    simp [rpmExt] at this
  · intro h
    have := congrArg List.length h
    simp [rpmExt] at this

/-! ## `filepath.Glob` on the pattern `*.rpm` -/

theorem glob_rpm_aux (names acc : List Str) :
    names.foldlM (fun m n =>
      match Match rpmPattern n with
      | .error e => (Except.error e : Except Err (List Str))
      | .ok matched => .ok (if matched then m ++ [Join [['.'], n]] else m)) acc
      = .ok (acc ++ names.filter (isMatch rpmPattern)) := by
  induction names generalizing acc with
  | nil => simp [pure, Except.pure]
  | cons n names ih =>
    rw [List.foldlM_cons, Match_rpm_eq]
    by_cases hm : isMatch rpmPattern n = true
    · have hj : Join [['.'], n] = n := Join_dot n (rpmName_normal n ((isMatch_rpm_iff n).1 hm))
      simp only [hm, if_true, hj, List.filter_cons_of_pos]
      show (Except.ok (acc ++ [n]) >>= _) = _
      simp only [bind, Except.bind]
      rw [ih]
      simp
    · simp only [hm, if_false, Bool.false_eq_true]
      show (Except.ok acc >>= _) = _
      simp only [bind, Except.bind]
      rw [ih]
      simp [hm]

theorem glob_rpm (E : Env) (w : World) :
    glob E ['.'] rpmPattern w [] = .ok (rpmEntries E w) := by
  unfold glob rpmEntries globNames
  rw [resolve_dot]
  split
  · rfl
  · split
    · rfl
    · split
      · rfl
      · exact (glob_rpm_aux _ []).trans (by simp)

theorem Glob_rpm (E : Env) (w : World) : Glob E rpmPattern w = .ok (rpmEntries E w) := by
  have h1 : Glob E rpmPattern w = globWithLimit E (9999 + 1) rpmPattern w := rfl
  have h2 : hasMeta rpmPattern = true := by decide
  have h3 : cleanGlobPath (Split rpmPattern).1 = ['.'] := by decide
  have h4 : (Split rpmPattern).2 = rpmPattern := by decide
  have h5 : hasMeta ['.'] = false := by decide
  rw [h1, globWithLimit, Match_rpm_eq]
  simp only [h2, h3, h4, h5, Bool.not_true, Bool.false_eq_true, if_false, Bool.not_false, if_true]
  exact glob_rpm E w

/-! ## Commands and directory creation -/

theorem isDir_iff (w : World) (p : Path) :
    isDir w p = true ↔ p = [] ∨ (p, Kind.dir) ∈ w.nodes := by
  simp [isDir]

theorem isFile_iff (w : World) (p : Path) :
    isFile w p = true ↔ ¬ (isDir w p = true) ∧ (p, Kind.file) ∈ w.nodes := by
  simp [isFile]

/-! ### External commands and the download loop -/

theorem runCommand_execLog (E : Env) (argv : List Str) (w : World) :
    (runCommand E argv w).1.execLog = w.execLog ++ [argv] := rfl

theorem runCommand_renameLog (E : Env) (argv : List Str) (w : World) :
    (runCommand E argv w).1.renameLog = w.renameLog := rfl

theorem runCommand_cwd (E : Env) (argv : List Str) (w : World) :
    (runCommand E argv w).1.cwd = w.cwd := rfl

theorem runCommand_isDir (E : Env) (hE : keepsDirs E) (argv : List Str) (w : World) (p : Path)
    (h : isDir w p = true) : isDir (runCommand E argv w).1 p = true := by
  rw [isDir_iff] at h ⊢
  rcases h with h | h
  · exact Or.inl h
  · exact Or.inr (hE argv w p h)

theorem downloadPackages_cons (E : Env) (pkg : Str) (rest : List Str) (w : World) :
    downloadPackages E (pkg :: rest) w
      = downloadPackages E rest (emit (downloadPackage E pkg w).1
          (match (downloadPackage E pkg w).2 with
           | some e => Msg.downloadFailed pkg e
           | none => Msg.downloaded pkg)) := by
  rw [downloadPackages]
  rcases h : downloadPackage E pkg w with ⟨w1, _ | e⟩ <;> rfl

theorem downloadPackage_execLog (E : Env) (pkg : Str) (w : World) :
    (downloadPackage E pkg w).1.execLog = w.execLog ++ [downloadArgv pkg] := rfl

theorem downloadPackage_renameLog (E : Env) (pkg : Str) (w : World) :
    (downloadPackage E pkg w).1.renameLog = w.renameLog := rfl

theorem downloadPackage_cwd (E : Env) (pkg : Str) (w : World) :
    (downloadPackage E pkg w).1.cwd = w.cwd := rfl

theorem downloadPackage_isDir (E : Env) (hE : keepsDirs E) (pkg : Str) (w : World) (p : Path)
    (h : isDir w p = true) : isDir (downloadPackage E pkg w).1 p = true :=
  runCommand_isDir E hE _ w p h

theorem emit_isDir (w : World) (m : Msg) (p : Path) : isDir (emit w m) p = isDir w p := rfl

theorem downloadPackages_execLog (E : Env) (packages : List Str) (w : World) :
    (downloadPackages E packages w).execLog = w.execLog ++ packages.map downloadArgv := by
  induction packages generalizing w with
  | nil => simp [downloadPackages]
  | cons pkg rest ih =>
    rw [downloadPackages_cons, ih]
    simp [emit, downloadPackage_execLog]

theorem downloadPackages_renameLog (E : Env) (packages : List Str) (w : World) :
    (downloadPackages E packages w).renameLog = w.renameLog := by
  induction packages generalizing w with
  | nil => simp [downloadPackages]
  | cons pkg rest ih =>
    rw [downloadPackages_cons, ih]
    simp [emit, downloadPackage_renameLog]

theorem downloadPackages_cwd (E : Env) (packages : List Str) (w : World) :
    (downloadPackages E packages w).cwd = w.cwd := by
  induction packages generalizing w with
  | nil => simp [downloadPackages]
  | cons pkg rest ih =>
    rw [downloadPackages_cons, ih]
    simp [emit, downloadPackage_cwd]

theorem downloadPackages_isDir (E : Env) (hE : keepsDirs E) (packages : List Str) (w : World)
    (p : Path) (h : isDir w p = true) : isDir (downloadPackages E packages w) p = true := by
  induction packages generalizing w with
  | nil => simpa [downloadPackages] using h
  | cons pkg rest ih =>
    rw [downloadPackages_cons]
    apply ih
    rw [emit_isDir]
    exact downloadPackage_isDir E hE pkg w p h

/-! ### Directory creation -/

theorem Keeps.refl (w : World) : Keeps w w := ⟨rfl, rfl, fun _ h => h⟩

theorem Keeps.trans {w w1 w2 : World} (h1 : Keeps w w1) (h2 : Keeps w1 w2) : Keeps w w2 :=
  ⟨h2.1.trans h1.1, h2.2.1.trans h1.2.1, fun q hq => h2.2.2 q (h1.2.2 q hq)⟩

theorem Mkdir_fields (E : Env) (p : Path) (w : World) :
    Keeps w (Mkdir E p w).1 ∧ (Mkdir E p w).1.renameLog = w.renameLog ∧
    ((Mkdir E p w).2 = none → isDir (Mkdir E p w).1 p = true) := by
  unfold Mkdir
  split
  · exact ⟨Keeps.refl w, rfl, fun h => by simp at h⟩
  · split
    · exact ⟨Keeps.refl w, rfl, fun h => by simp at h⟩
    · split
      · exact ⟨Keeps.refl w, rfl, fun h => by simp at h⟩
      · refine ⟨⟨rfl, rfl, ?_⟩, rfl, ?_⟩
        · intro q hq
          rw [isDir_iff] at hq ⊢
          rcases hq with hq | hq
          · exact Or.inl hq
          · exact Or.inr (List.mem_cons_of_mem _ hq)
        · intro _
          rw [isDir_iff]
          exact Or.inr (List.mem_cons_self _ _)

theorem mkdirAllRev_fields (E : Env) (rp : List Str) (w : World) :
    Keeps w (mkdirAllRev E rp w).1 ∧ (mkdirAllRev E rp w).1.renameLog = w.renameLog ∧
    ((mkdirAllRev E rp w).2 = none → isDir (mkdirAllRev E rp w).1 rp.reverse = true) := by
  induction rp generalizing w with
  | nil => exact ⟨Keeps.refl w, rfl, fun _ => by simp [mkdirAllRev, isDir]⟩
  | cons n parent ih =>
    rw [mkdirAllRev]
    split
    · rename_i h1
      exact ⟨Keeps.refl w, rfl, fun _ => (Bool.and_eq_true _ _ ▸ h1).2⟩
    · split
      · exact ⟨Keeps.refl w, rfl, fun h => by simp at h⟩
      · obtain ⟨a1, a2, -⟩ := ih w
        split
        · rename_i w1 e hr
          rw [hr] at a1 a2
          exact ⟨a1, a2, fun h => by simp at h⟩
        · rename_i w1 hr
          rw [hr] at a1 a2
          obtain ⟨b1, b2, b3⟩ := Mkdir_fields E (n :: parent).reverse w1
          split
          · rename_i w2 e hm
            rw [hm] at b1 b2 b3
            split
            · rename_i h3
              exact ⟨a1.trans b1, b2.trans a2, fun _ => (Bool.and_eq_true _ _ ▸ h3).2⟩
            · exact ⟨a1.trans b1, b2.trans a2, fun h => by simp at h⟩
          · rename_i w2 hm
            rw [hm] at b1 b2 b3
            exact ⟨a1.trans b1, b2.trans a2, fun _ => b3 rfl⟩

theorem segments_no_sep (t : Str) : ∀ s ∈ segments t, ∀ c ∈ s, c ≠ Separator := by
  unfold segments
  induction t with
  | nil => simp
  | cons a t ih =>
    rw [List.splitOnP_cons]
    split
    · intro s hs
      rcases List.mem_cons.1 hs with rfl | hs
      · simp
      · exact ih s hs
    · rename_i ha
      rcases hx : List.splitOnP (fun x => x == Separator) t with _ | ⟨x, xs⟩
      · simp [List.modifyHead]
      · rw [hx] at ih
        intro s hs
        simp only [List.modifyHead, List.mem_cons] at hs
        rcases hs with rfl | hs
        · intro c hc
          rcases List.mem_cons.1 hc with rfl | hc
          · simpa using ha
          · exact ih x (by simp) c hc
        · exact ih s (by simp [hs])

theorem normalPath_outputPath (w : World) (hcwd : normalPath w.cwd) (packageName : Str) :
    normalPath (outputPath w packageName) := by
  apply normalPath_walk
  · intro s hs
    rcases List.mem_append.1 hs with hs | hs
    · exact hcwd s hs
    · simp at hs
      subst hs
      decide
  · exact segments_no_sep packageName

theorem createOutputDirectory_ok (E : Env) (packageName : Str) (w : World)
    (hcwd : normalPath w.cwd) (D : Str) (h : (createOutputDirectory E packageName w).2 = .ok D) :
    D = render (outputPath w packageName) ∧
    Keeps w (createOutputDirectory E packageName w).1 ∧
    (createOutputDirectory E packageName w).1.renameLog = w.renameLog ∧
    isDir (createOutputDirectory E packageName w).1 (outputPath w packageName) = true := by
  have hJ : Join [render w.cwd, "out".toList, packageName] = render (outputPath w packageName) :=
    Join_out w.cwd hcwd packageName
  have hres : resolve w.cwd (render (outputPath w packageName)) = outputPath w packageName :=
    resolve_render _ _ (normalPath_outputPath w hcwd packageName)
  unfold createOutputDirectory Getwd at h ⊢
  rcases hg : E.getwdErr w with _ | e
  · simp only [hg, hJ] at h ⊢
    obtain ⟨a1, a2, a3⟩ := mkdirAllRev_fields E (outputPath w packageName).reverse w
    unfold MkdirAll at h ⊢
    rw [hres] at h ⊢
    rcases hm : mkdirAllRev E (outputPath w packageName).reverse w with ⟨w1, _ | e⟩
    · rw [hm] at a1 a2 a3 h
      simp only [Except.ok.injEq] at h
      exact ⟨h.symm, a1, a2, by simpa using a3 rfl⟩
    · rw [hm] at h
      simp at h
  · simp [hg] at h

theorem createOutputDirectory_keeps (E : Env) (packageName : Str) (w : World) :
    Keeps w (createOutputDirectory E packageName w).1 ∧
    (createOutputDirectory E packageName w).1.renameLog = w.renameLog := by
  unfold createOutputDirectory Getwd
  rcases hg : E.getwdErr w with _ | e
  · simp only
    unfold MkdirAll
    obtain ⟨a1, a2, -⟩ := mkdirAllRev_fields E
      (resolve w.cwd (Join [render w.cwd, "out".toList, packageName])).reverse w
    split
    · rename_i w1 e hm
      rw [hm] at a1 a2
      exact ⟨a1, a2⟩
    · rename_i w1 hm
      rw [hm] at a1 a2
      exact ⟨a1, a2⟩
  · exact ⟨Keeps.refl w, rfl⟩

/-! ## The system call `rename` -/

theorem sysRename_cases (w : World) (src dst : Path) :
    (∃ e, sysRename w src dst = .error e) ∨
    (sysRename w src dst = .ok w.nodes ∧ src = dst ∧ pathExists w src = true) ∨
    (sysRename w src dst = .ok (moveTree src dst w.nodes) ∧
      src ≠ [] ∧ src ≠ dst ∧ isDir w src = true ∧
      src.isPrefixOf dst = false ∧ dst.isPrefixOf src = false) ∨
    (sysRename w src dst = .ok ((dst, Kind.file) ::
        w.nodes.filter (fun n => n ≠ (src, Kind.file) ∧ n ≠ (dst, Kind.file))) ∧
      dst ≠ [] ∧ src ≠ dst ∧ isDir w src = false ∧ isFile w src = true ∧
      isDir w dst = false) := by
  unfold sysRename
  split
  · exact Or.inl ⟨_, rfl⟩
  · rename_i h0
    simp only [not_or] at h0
    split
    · exact Or.inl ⟨_, rfl⟩
    · split
      · rename_i heq
        split
        · rename_i hex
          exact Or.inr (Or.inl ⟨rfl, heq, hex⟩)
        · exact Or.inl ⟨_, rfl⟩
      · rename_i hne
        split
        · rename_i hd
          split
          · exact Or.inl ⟨_, rfl⟩
          · rename_i hp1
            split
            · exact Or.inl ⟨_, rfl⟩
            · rename_i hp2
              split
              · exact Or.inl ⟨_, rfl⟩
              · split
                · exact Or.inl ⟨_, rfl⟩
                · exact Or.inr (Or.inr (Or.inl ⟨rfl, h0.1, hne, hd,
                    Bool.eq_false_iff.2 hp1, Bool.eq_false_iff.2 hp2⟩))
        · rename_i hd
          split
          · rename_i hf
            split
            · exact Or.inl ⟨_, rfl⟩
            · rename_i hdd
              simp only [Bool.or_eq_true, not_or] at hdd
              exact Or.inr (Or.inr (Or.inr ⟨rfl, h0.2, hne, by simpa using hd, hf,
                by simpa using hdd.1⟩))
          · exact Or.inl ⟨_, rfl⟩

/-- The target of a rename lies directly in directory `d`: the rename removes neither `d` nor
any ancestor of it. -/
theorem sysRename_keeps_dir (w : World) (src d : Path) (f : Str) (nodes : List (Path × Kind))
    (h : sysRename w src (d ++ [f]) = .ok nodes) (q : Path) (hq : q.isPrefixOf d = true)
    (hd : isDir w q = true) : q = [] ∨ (q, Kind.dir) ∈ nodes := by
  rw [isDir_iff] at hd
  rcases hd with hd | hd
  · exact Or.inl hd
  right
  have hqd : q <+: d := List.isPrefixOf_iff_prefix.1 hq
  have hne : q ≠ d ++ [f] := by
    intro h
    have := hqd.length_le
    rw [h] at this
    simp at this
  rcases sysRename_cases w src (d ++ [f]) with ⟨e, he⟩ | ⟨he, -⟩ | ⟨he, -, -, -, hp, -⟩ |
      ⟨he, -⟩
  · rw [he] at h
    simp at h
  · rw [he] at h
    simp only [Except.ok.injEq] at h
    exact h ▸ hd
  · rw [he] at h
    simp only [Except.ok.injEq] at h
    subst h
    unfold moveTree
    rw [List.mem_map]
    refine ⟨(q, Kind.dir), ?_, ?_⟩
    · rw [List.mem_filter]
      refine ⟨hd, ?_⟩
      simp [hne]
    · have hnp : src.isPrefixOf q = false := by
        by_contra hc
        simp only [Bool.not_eq_false] at hc
        have h1 : src <+: q := List.isPrefixOf_iff_prefix.1 hc
        have h2 : src <+: d ++ [f] := h1.trans (hqd.trans (List.prefix_append _ _))
        have := List.isPrefixOf_iff_prefix.2 h2
        rw [hp] at this
        simp at this
      simp [hnp]
  · rw [he] at h
    simp only [Except.ok.injEq] at h
    subst h
    apply List.mem_cons_of_mem
    rw [List.mem_filter]
    exact ⟨hd, by simp⟩

/-- The target of a rename is the entry `f` of directory `d`: every entry of `d` afterwards was
an entry before, or is `f`. -/
theorem sysRename_entries (w : World) (src d : Path) (f : Str) (nodes : List (Path × Kind))
    (h : sysRename w src (d ++ [f]) = .ok nodes) (n : Str) (k : Kind)
    (hn : (d ++ [n], k) ∈ nodes) : (∃ k1, (d ++ [n], k1) ∈ w.nodes) ∨ n = f := by
  rcases sysRename_cases w src (d ++ [f]) with ⟨e, he⟩ | ⟨he, -⟩ | ⟨he, -⟩ | ⟨he, -⟩
  · rw [he] at h
    simp at h
  · rw [he] at h
    simp only [Except.ok.injEq] at h
    exact Or.inl ⟨k, h ▸ hn⟩
  · rw [he] at h
    simp only [Except.ok.injEq] at h
    subst h
    unfold moveTree at hn
    rw [List.mem_map] at hn
    obtain ⟨⟨p, k0⟩, hmem, heq⟩ := hn
    rw [List.mem_filter] at hmem
    by_cases hp : src.isPrefixOf p = true
    · simp only [hp, if_true, Prod.mk.injEq] at heq
      right
      have h1 : d ++ ([f] ++ List.drop src.length p) = d ++ [n] := by
        rw [← List.append_assoc]; exact heq.1
      have h2 := List.append_cancel_left h1
      simp at h2
      exact h2.1.symm
    · simp only [hp, if_false, Bool.false_eq_true] at heq
      left
      simp only [Prod.mk.injEq] at heq
      exact ⟨k0, heq.1 ▸ hmem.1⟩
  · rw [he] at h
    simp only [Except.ok.injEq] at h
    subst h
    rcases List.mem_cons.1 hn with hn | hn
    · right
      simp only [Prod.mk.injEq] at hn
      have := List.append_cancel_left hn.1
      simpa using this
    · left
      exact ⟨k, (List.mem_filter.1 hn).1⟩

/-! ## `os.Rename` and the relocation loop -/

theorem isPrefixOf_self (p : Path) : p.isPrefixOf p = true :=
  List.isPrefixOf_iff_prefix.2 (List.prefix_refl p)

theorem moveTree_not_src (src dst : Path) (nodes : List (Path × Kind)) (k : Kind)
    (hp : dst.isPrefixOf src = false) : (src, k) ∉ moveTree src dst nodes := by
  intro hm
  unfold moveTree at hm
  rw [List.mem_map] at hm
  obtain ⟨⟨p, k0⟩, -, heq⟩ := hm
  by_cases hsp : src.isPrefixOf p = true
  · simp only [hsp, if_true, Prod.mk.injEq] at heq
    have : dst <+: src := ⟨_, heq.1⟩
    rw [List.isPrefixOf_iff_prefix.2 this] at hp
    simp at hp
  · simp only [hsp, if_false, Bool.false_eq_true, Prod.mk.injEq] at heq
    rw [heq.1] at hsp
    exact hsp (isPrefixOf_self src)

/-- After a successful rename the target exists and, unless it is the source itself, the
source does not. -/
theorem sysRename_moved (w : World) (src dst : Path) (nodes : List (Path × Kind))
    (h : sysRename w src dst = .ok nodes) :
    pathExists { w with nodes := nodes } dst = true ∧
    (src ≠ dst → pathExists { w with nodes := nodes } src = false) := by
  rcases sysRename_cases w src dst with ⟨e, he⟩ | ⟨he, heq, hex⟩ | ⟨he, h0, hne, hd, hp1, hp2⟩ |
      ⟨he, h0, hne, hd, hf, hdd⟩
  · rw [he] at h
    simp at h
  · rw [he] at h
    simp only [Except.ok.injEq] at h
    subst h
    exact ⟨heq ▸ hex, fun hn => absurd heq hn⟩
  · rw [he] at h
    simp only [Except.ok.injEq] at h
    subst h
    have hsd : (src, Kind.dir) ∈ w.nodes := by
      rcases (isDir_iff w src).1 hd with h | h
      · exact absurd h h0
      · exact h
    refine ⟨?_, fun _ => ?_⟩
    · have : (dst, Kind.dir) ∈ moveTree src dst w.nodes := by
        unfold moveTree
        rw [List.mem_map]
        refine ⟨(src, Kind.dir), ?_, by simp [isPrefixOf_self]⟩
        rw [List.mem_filter]
        exact ⟨hsd, by simp [hne]⟩
      simp [pathExists, isDir, this]
    · have h1 := moveTree_not_src src dst w.nodes Kind.dir hp2
      have h2 := moveTree_not_src src dst w.nodes Kind.file hp2
      simp [pathExists, isDir, isFile, h0, h1, h2]
  · rw [he] at h
    simp only [Except.ok.injEq] at h
    subst h
    have hdn : (dst, Kind.dir) ∉ w.nodes := by
      intro hm
      have := (isDir_iff w dst).2 (Or.inr hm)
      rw [hdd] at this
      simp at this
    have hsn : (src, Kind.dir) ∉ w.nodes := by
      intro hm
      have := (isDir_iff w src).2 (Or.inr hm)
      rw [hd] at this
      simp at this
    have hs0 : src ≠ [] := by
      intro hm
      have := (isDir_iff w src).2 (Or.inl hm)
      rw [hd] at this
      simp at this
    refine ⟨?_, fun _ => ?_⟩
    · simp [pathExists, isDir, isFile, h0, hdn]
    · simp [pathExists, isDir, isFile, hs0, hsn, hne]

/-! ### `os.Rename` -/

theorem Rename_cases (E : Env) (oldpath newpath : Str) (w : World) :
    (∃ e, Rename E oldpath newpath w
      = ({ w with renameLog := w.renameLog ++ [(oldpath, newpath)] }, some e)) ∨
    (∃ nodes, sysRename w (resolve w.cwd oldpath) (resolve w.cwd newpath) = .ok nodes ∧
      Rename E oldpath newpath w
        = ({ w with renameLog := w.renameLog ++ [(oldpath, newpath)], nodes := nodes }, none)) := by
  unfold Rename
  split
  · exact Or.inl ⟨_, rfl⟩
  · split
    · exact Or.inl ⟨_, rfl⟩
    · split
      · exact Or.inl ⟨_, rfl⟩
      · split
        · exact Or.inl ⟨_, rfl⟩
        · rename_i nodes h
          exact Or.inr ⟨nodes, h, rfl⟩

theorem Rename_renameLog (E : Env) (oldpath newpath : Str) (w : World) :
    (Rename E oldpath newpath w).1.renameLog = w.renameLog ++ [(oldpath, newpath)] := by
  rcases Rename_cases E oldpath newpath w with ⟨e, h⟩ | ⟨nodes, -, h⟩ <;> rw [h]

theorem Rename_cwd (E : Env) (oldpath newpath : Str) (w : World) :
    (Rename E oldpath newpath w).1.cwd = w.cwd := by
  rcases Rename_cases E oldpath newpath w with ⟨e, h⟩ | ⟨nodes, -, h⟩ <;> rw [h]

theorem Rename_execLog (E : Env) (oldpath newpath : Str) (w : World) :
    (Rename E oldpath newpath w).1.execLog = w.execLog := by
  rcases Rename_cases E oldpath newpath w with ⟨e, h⟩ | ⟨nodes, -, h⟩ <;> rw [h]

/-- A failed rename leaves the filesystem as it was. -/
theorem Rename_failed (E : Env) (oldpath newpath : Str) (w : World) (e : Err)
    (h : (Rename E oldpath newpath w).2 = some e) :
    (Rename E oldpath newpath w).1.nodes = w.nodes := by
  rcases Rename_cases E oldpath newpath w with ⟨e1, h1⟩ | ⟨nodes, -, h1⟩
  · rw [h1]
  · rw [h1] at h
    simp at h

theorem Rename_ok (E : Env) (oldpath newpath : Str) (w : World)
    (h : (Rename E oldpath newpath w).2 = none) :
    sysRename w (resolve w.cwd oldpath) (resolve w.cwd newpath)
      = .ok (Rename E oldpath newpath w).1.nodes := by
  rcases Rename_cases E oldpath newpath w with ⟨e1, h1⟩ | ⟨nodes, hs, h1⟩
  · rw [h1] at h
    simp at h
  · rw [h1]
    exact hs

theorem Rename_nodes (E : Env) (oldpath newpath : Str) (w : World) :
    (Rename E oldpath newpath w).1.nodes = w.nodes ∨
    ((Rename E oldpath newpath w).2 = none ∧
      sysRename w (resolve w.cwd oldpath) (resolve w.cwd newpath)
        = .ok (Rename E oldpath newpath w).1.nodes) := by
  rcases Rename_cases E oldpath newpath w with ⟨e1, h1⟩ | ⟨nodes, hs, h1⟩
  · rw [h1]
    exact Or.inl rfl
  · rw [h1]
    exact Or.inr ⟨rfl, hs⟩

theorem Rename_keeps_dir (E : Env) (oldpath newpath : Str) (w : World) (d : Path) (f : Str)
    (hnew : resolve w.cwd newpath = d ++ [f]) (q : Path) (hq : q.isPrefixOf d = true)
    (hd : isDir w q = true) : isDir (Rename E oldpath newpath w).1 q = true := by
  rcases Rename_nodes E oldpath newpath w with h | ⟨-, h⟩
  · rw [isDir_iff] at hd ⊢
    rw [h]
    exact hd
  · rw [hnew] at h
    rw [isDir_iff]
    exact sysRename_keeps_dir w _ d f _ h q hq hd

theorem Rename_entries (E : Env) (oldpath newpath : Str) (w : World) (d : Path) (f : Str)
    (hnew : resolve w.cwd newpath = d ++ [f]) (n : Str) (k : Kind)
    (hn : (d ++ [n], k) ∈ (Rename E oldpath newpath w).1.nodes) :
    (∃ k1, (d ++ [n], k1) ∈ w.nodes) ∨ n = f := by
  rcases Rename_nodes E oldpath newpath w with h | ⟨-, h⟩
  · rw [h] at hn
    exact Or.inl ⟨k, hn⟩
  · rw [hnew] at h
    exact sysRename_entries w _ d f _ h n k hn

/-! ### The relocation loop -/

theorem moveLoop_cons (E : Env) (outputDir rpmFile : Str) (rest : List Str) (w : World) :
    moveLoop E outputDir (rpmFile :: rest) w
      = moveLoop E outputDir rest
          (emit (Rename E rpmFile (Join [outputDir, Base rpmFile]) w).1
            (match (Rename E rpmFile (Join [outputDir, Base rpmFile]) w).2 with
             | some e => Msg.moveFailed rpmFile outputDir e
             | none => Msg.moved rpmFile outputDir)) := by
  rw [moveLoop]
  rcases h : Rename E rpmFile (Join [outputDir, Base rpmFile]) w with ⟨w1, _ | e⟩ <;> rfl

theorem moveLoop_renameLog (E : Env) (outputDir : Str) (files : List Str) (w : World) :
    (moveLoop E outputDir files w).renameLog
      = w.renameLog ++ files.map (fun f => (f, Join [outputDir, Base f])) := by
  induction files generalizing w with
  | nil => simp [moveLoop]
  | cons f rest ih =>
    rw [moveLoop_cons, ih]
    simp [emit, Rename_renameLog]

theorem moveLoop_execLog (E : Env) (outputDir : Str) (files : List Str) (w : World) :
    (moveLoop E outputDir files w).execLog = w.execLog := by
  induction files generalizing w with
  | nil => simp [moveLoop]
  | cons f rest ih =>
    rw [moveLoop_cons, ih]
    simp [emit, Rename_execLog]

theorem moveLoop_cwd (E : Env) (outputDir : Str) (files : List Str) (w : World) :
    (moveLoop E outputDir files w).cwd = w.cwd := by
  induction files generalizing w with
  | nil => simp [moveLoop]
  | cons f rest ih =>
    rw [moveLoop_cons, ih]
    simp [emit, Rename_cwd]

theorem resolve_target (cwd d : Path) (hd : normalPath d) (f : Str) (hf : normalName f) :
    resolve cwd (Join [render d, Base f]) = d ++ [f] := by
  rw [Base_normal f hf, Join_entry d hd f hf]
  apply resolve_render
  intro s hs
  rcases List.mem_append.1 hs with hs | hs
  · exact hd s hs
  · simp at hs
    exact hs ▸ hf

theorem moveLoop_keeps_dir (E : Env) (d : Path) (hd : normalPath d) (files : List Str)
    (hfiles : ∀ f ∈ files, normalName f) (w : World) (q : Path)
    (hq : q.isPrefixOf d = true) (h : isDir w q = true) :
    isDir (moveLoop E (render d) files w) q = true := by
  induction files generalizing w with
  | nil => simpa [moveLoop] using h
  | cons f rest ih =>
    rw [moveLoop_cons]
    apply ih (fun g hg => hfiles g (by simp [hg]))
    rw [emit_isDir]
    exact Rename_keeps_dir E _ _ w d f (resolve_target _ d hd f (hfiles f (by simp))) q hq h

theorem moveLoop_entries (E : Env) (d : Path) (hd : normalPath d) (files : List Str)
    (hfiles : ∀ f ∈ files, normalName f) (w : World) (n : Str) (k : Kind)
    (hn : (d ++ [n], k) ∈ (moveLoop E (render d) files w).nodes) :
    (∃ k1, (d ++ [n], k1) ∈ w.nodes) ∨ n ∈ files := by
  induction files generalizing w with
  | nil => exact Or.inl ⟨k, by simpa [moveLoop] using hn⟩
  | cons f rest ih =>
    rw [moveLoop_cons] at hn
    rcases ih (fun g hg => hfiles g (by simp [hg])) _ hn with ⟨k1, h1⟩ | h1
    · have h2 : (d ++ [n], k1) ∈ (Rename E f (Join [render d, Base f]) w).1.nodes := h1
      rcases Rename_entries E _ _ w d f (resolve_target _ d hd f (hfiles f (by simp))) n k1 h2
        with h3 | h3
      · exact Or.inl h3
      · exact Or.inr (by simp [h3])
    · exact Or.inr (by simp [h1])

theorem moveRPMFiles_eq (E : Env) (outputDir : Str) (w : World) :
    moveRPMFiles E outputDir w = (moveLoop E outputDir (rpmEntries E w) w, Outcome.done) := by
  unfold moveRPMFiles
  have : Glob E "*.rpm".toList w = .ok (rpmEntries E w) := Glob_rpm E w
  rw [this]

theorem rpmEntries_normal (E : Env) (w : World) : ∀ f ∈ rpmEntries E w, normalName f := by
  intro f hf
  unfold rpmEntries at hf
  rw [List.mem_filter] at hf
  exact rpmName_normal f ((isMatch_rpm_iff f).1 hf.2)

/-! ## The stages of `run` -/

theorem run_of_create_error (E : Env) (packageName : Str) (w : World) (e : Err)
    (h : (createOutputDirectory E packageName w).2 = .error e) :
    run E packageName w = ((createOutputDirectory E packageName w).1, .fatal (.fatalCreate e)) := by
  unfold run
  rcases hc : createOutputDirectory E packageName w with ⟨w1, r⟩
  rw [hc] at h
  simp only at h
  subst h
  rfl

theorem run_of_resolve_error (E : Env) (packageName : Str) (w : World) (D : Str) (e : Err)
    (hcreate : (createOutputDirectory E packageName w).2 = .ok D)
    (hres : (resolveDependencies E packageName (created E packageName w D)).2 = .error e) :
    run E packageName w = (resolved E packageName w D, .fatal (.fatalResolve packageName e)) := by
  unfold run resolved
  unfold created at hres ⊢
  rcases hc : createOutputDirectory E packageName w with ⟨w1, r⟩
  rw [hc] at hcreate hres
  simp only at hcreate hres ⊢
  subst hcreate
  simp only
  rcases hr : resolveDependencies E packageName (emit w1 (Msg.outputDirCreated D)) with ⟨w3, r3⟩
  rw [hr] at hres
  simp only at hres
  subst hres
  rfl

theorem run_of_ok (E : Env) (packageName : Str) (w : World) (D : Str) (deps : List Str)
    (hcreate : (createOutputDirectory E packageName w).2 = .ok D)
    (hres : (resolveDependencies E packageName (created E packageName w D)).2 = .ok deps) :
    run E packageName w = moveRPMFiles E D (fetched E packageName w D deps) := by
  unfold run fetched resolved
  unfold created at hres ⊢
  rcases hc : createOutputDirectory E packageName w with ⟨w1, r⟩
  rw [hc] at hcreate hres
  simp only at hcreate hres ⊢
  subst hcreate
  simp only
  rcases hr : resolveDependencies E packageName (emit w1 (Msg.outputDirCreated D)) with ⟨w3, r3⟩
  rw [hr] at hres
  simp only at hres
  subst hres
  rfl

theorem resolveDependencies_fields (E : Env) (pkgName : Str) (w : World) :
    (resolveDependencies E pkgName w).1.execLog = w.execLog ++ [repoqueryArgv pkgName] ∧
    (resolveDependencies E pkgName w).1.renameLog = w.renameLog ∧
    (resolveDependencies E pkgName w).1.cwd = w.cwd ∧
    (resolveDependencies E pkgName w).1 = (runCommand E (repoqueryArgv pkgName) w).1 := by
  unfold resolveDependencies
  split <;> rename_i h <;> rw [h] <;>
    exact ⟨by rw [← runCommand_execLog E, h], by rw [← runCommand_renameLog E (repoqueryArgv pkgName) w, h],
      by rw [← runCommand_cwd E (repoqueryArgv pkgName) w, h], rfl⟩

theorem resolveDependencies_result (E : Env) (pkgName : Str) (w : World) :
    (resolveDependencies E pkgName w).2 =
      match (E.exec (repoqueryArgv pkgName) w).err with
      | some e => .error e
      | none => .ok (Fields (E.exec (repoqueryArgv pkgName) w).stdout) := by
  unfold resolveDependencies runCommand
  rcases h : (E.exec (repoqueryArgv pkgName) w).err with _ | e <;> simp only [h]

theorem created_keeps (E : Env) (packageName : Str) (w : World) (D : Str) :
    Keeps w (created E packageName w D) ∧ (created E packageName w D).renameLog = w.renameLog := by
  obtain ⟨h1, h2⟩ := createOutputDirectory_keeps E packageName w
  exact ⟨h1, h2⟩

theorem resolved_execLog (E : Env) (packageName : Str) (w : World) (D : Str) :
    (resolved E packageName w D).execLog = w.execLog ++ [repoqueryArgv packageName] := by
  unfold resolved
  rw [(resolveDependencies_fields E packageName _).1, (created_keeps E packageName w D).1.2.1]

theorem resolved_renameLog (E : Env) (packageName : Str) (w : World) (D : Str) :
    (resolved E packageName w D).renameLog = w.renameLog := by
  unfold resolved
  rw [(resolveDependencies_fields E packageName _).2.1, (created_keeps E packageName w D).2]

theorem resolved_cwd (E : Env) (packageName : Str) (w : World) (D : Str) :
    (resolved E packageName w D).cwd = w.cwd := by
  unfold resolved
  rw [(resolveDependencies_fields E packageName _).2.2.1, (created_keeps E packageName w D).1.1]

theorem resolved_isDir (E : Env) (hE : keepsDirs E) (packageName : Str) (w : World) (D : Str)
    (p : Path) (h : isDir (created E packageName w D) p = true) :
    isDir (resolved E packageName w D) p = true := by
  unfold resolved
  rw [(resolveDependencies_fields E packageName _).2.2.2]
  exact runCommand_isDir E hE _ _ p h

theorem resolved_isDir_of_frame (E : Env) (packageName : Str) (w : World) (D : Str)
    (hframe : ∀ p, (p, Kind.dir) ∈ (created E packageName w D).nodes →
      (p, Kind.dir) ∈ (E.exec (repoqueryArgv packageName) (created E packageName w D)).nodes)
    (p : Path) (h : isDir (created E packageName w D) p = true) :
    isDir (resolved E packageName w D) p = true := by
  unfold resolved
  rw [(resolveDependencies_fields E packageName _).2.2.2]
  rw [isDir_iff] at h ⊢
  rcases h with h | h
  · exact Or.inl h
  · exact Or.inr (hframe p h)

theorem fetched_execLog (E : Env) (packageName : Str) (w : World) (D : Str) (deps : List Str) :
    (fetched E packageName w D deps).execLog
      = w.execLog ++ repoqueryArgv packageName :: deps.map downloadArgv := by
  unfold fetched
  rw [downloadPackages_execLog, resolved_execLog]
  simp

theorem fetched_renameLog (E : Env) (packageName : Str) (w : World) (D : Str)
    (deps : List Str) : (fetched E packageName w D deps).renameLog = w.renameLog := by
  unfold fetched
  rw [downloadPackages_renameLog, resolved_renameLog]

theorem fetched_cwd (E : Env) (packageName : Str) (w : World) (D : Str) (deps : List Str) :
    (fetched E packageName w D deps).cwd = w.cwd := by
  unfold fetched
  rw [downloadPackages_cwd, resolved_cwd]

theorem Match_true_isMatch (f : Str) (h : Match "*.rpm".toList f = .ok true) :
    isMatch rpmPattern f = true := by
  unfold isMatch
  have h1 : Match rpmPattern f = .ok true := h
  rw [h1]

theorem intercalate_append (sep : List Char) (a b : List Str) (ha : a ≠ []) (hb : b ≠ []) :
    sep.intercalate (a ++ b) = sep.intercalate a ++ sep ++ sep.intercalate b := by
  induction a with
  | nil => exact absurd rfl ha
  | cons x a ih =>
    obtain ⟨y, b1, rfl⟩ := List.exists_cons_of_ne_nil hb
    cases a with
    | nil => simp [List.intercalate]
    | cons z a =>
      have := ih (by simp)
      simp only [List.intercalate] at this ⊢
      simp at this ⊢
      simp [this]

theorem dirEntries_nodup (w : World) (d : Path) : (dirEntries w d).Nodup := by
  unfold dirEntries
  split
  · exact List.nodup_dedup _
  · exact List.nodup_nil

theorem globNames_nodup (E : Env) (w : World) (d : Path) : (globNames E w d).Nodup := by
  unfold globNames
  split
  · exact List.nodup_nil
  · split
    · exact List.nodup_nil
    · split
      · exact List.nodup_nil
      · exact (List.perm_insertionSort _ _).nodup_iff.2 ((dirEntries_nodup w d).filter _)

theorem mem_globNames (E : Env) (w : World) (d : Path) (f : Str) (h : f ∈ globNames E w d) :
    f ∈ dirEntries w d := by
  unfold globNames at h
  split at h
  · simp at h
  · split at h
    · simp at h
    · split at h
      · simp at h
      · rw [(List.perm_insertionSort _ _).mem_iff] at h
        exact (List.mem_filter.1 h).1

theorem mem_globNames_iff (E : Env) (w : World) (d : Path) (hl : canList E w d) (f : Str) :
    f ∈ globNames E w d ↔ f ∈ dirEntries w d := by
  obtain ⟨h1, h2, h3⟩ := hl
  refine ⟨mem_globNames E w d f, fun h => ?_⟩
  have hd : isDir w d = true := by
    by_contra hc
    unfold dirEntries at h
    rw [if_neg hc] at h
    simp at h
  unfold globNames
  simp only [h1, h2, hd, Option.isSome_none, Bool.false_eq_true, if_false, Bool.not_true]
  rw [(List.perm_insertionSort _ _).mem_iff]
  unfold Readdirnames
  rw [List.mem_filter, h3]
  exact ⟨h, by simp⟩

theorem isMatch_iff_Match (f : Str) :
    isMatch rpmPattern f = true ↔ Match "*.rpm".toList f = .ok true := by
  constructor
  · intro h
    have h1 := Match_rpm_eq f
    rw [h] at h1
    exact h1
  · exact Match_true_isMatch f

theorem mem_rpmEntries (E : Env) (w : World) (f : Str) (h : f ∈ rpmEntries E w) :
    f ∈ dirEntries w w.cwd ∧ Match "*.rpm".toList f = .ok true := by
  unfold rpmEntries at h
  rw [List.mem_filter] at h
  exact ⟨mem_globNames E w w.cwd f h.1, (isMatch_iff_Match f).1 h.2⟩

theorem mem_rpmEntries_iff (E : Env) (w : World) (hl : canList E w w.cwd) (f : Str) :
    f ∈ rpmEntries E w ↔ f ∈ dirEntries w w.cwd ∧ Match "*.rpm".toList f = .ok true := by
  unfold rpmEntries
  rw [List.mem_filter, mem_globNames_iff E w w.cwd hl, isMatch_iff_Match]

/-! ## The claims -/

/-- C1: `downloadPackages` starts one `dnf download` per element of the dependency list, in the
order of the list and with duplicates repeated, whatever the individual fetches return: the
commands it adds to the log are exactly the list mapped to the fetch command line, hence as
many as the list is long (none for the empty list). -/
theorem fetch_attempts_follow_list (E : Env) (packages : List Str) (w : World) :
    (downloadPackages E packages w).execLog = w.execLog ++ packages.map downloadArgv ∧
    (downloadPackages E packages w).execLog.length = w.execLog.length + packages.length := by
  have h := downloadPackages_execLog E packages w
  refine ⟨h, ?_⟩
  rw [h]
  simp

/-- C2 (amended): when the resolver returned `[A, B, C]` and the fetch of `B` fails, `run` still
starts the fetches of `A`, `B` and `C` in this order, then finishes normally after the
relocation step, which attempts one rename into the output directory for every name that
`Glob` returns, each an entry of the working directory that `*.rpm` matches after the
downloads; when the working directory can be listed, these are all such entries. -/
theorem fetch_failure_not_fatal (E : Env) (packageName A B C : Str) (w : World) (D : Str)
    (hcreate : (createOutputDirectory E packageName w).2 = .ok D)
    (hres : (resolveDependencies E packageName (created E packageName w D)).2 = .ok [A, B, C])
    (hB : (downloadPackage E B (downloadPackages E [A] (resolved E packageName w D))).2 ≠ none) :
    (run E packageName w).1.execLog
      = w.execLog ++ [repoqueryArgv packageName, downloadArgv A, downloadArgv B, downloadArgv C] ∧
    (run E packageName w).2 = .done ∧
    (run E packageName w).1.renameLog
      = w.renameLog ++ (rpmEntries E (fetched E packageName w D [A, B, C])).map
          (fun f => (f, Join [D, Base f])) ∧
    (∀ f ∈ rpmEntries E (fetched E packageName w D [A, B, C]),
      f ∈ dirEntries (fetched E packageName w D [A, B, C])
          (fetched E packageName w D [A, B, C]).cwd ∧
      Match "*.rpm".toList f = .ok true) ∧
    (canList E (fetched E packageName w D [A, B, C])
        (fetched E packageName w D [A, B, C]).cwd →
      ∀ f, f ∈ dirEntries (fetched E packageName w D [A, B, C])
            (fetched E packageName w D [A, B, C]).cwd →
        Match "*.rpm".toList f = .ok true →
        (f, Join [D, Base f]) ∈ (run E packageName w).1.renameLog) := by
  have _ := hB
  rw [run_of_ok E packageName w D [A, B, C] hcreate hres, moveRPMFiles_eq]
  have hlog := moveLoop_renameLog E D (rpmEntries E (fetched E packageName w D [A, B, C]))
    (fetched E packageName w D [A, B, C])
  rw [fetched_renameLog] at hlog
  refine ⟨?_, rfl, hlog, fun f hf => mem_rpmEntries E _ f hf, ?_⟩
  · simp only [moveLoop_execLog, fetched_execLog]
    simp
  · intro hl f hf hm
    simp only [hlog]
    apply List.mem_append_right
    rw [List.mem_map]
    exact ⟨f, (mem_rpmEntries_iff E _ hl f).2 ⟨hf, hm⟩, rfl⟩

/-- C3: when the resolver command fails (non-zero exit, or it could not be started),
`resolveDependencies` returns the error and `run` ends fatally with exit status 1; the only
command started is the resolver (no fetch), no rename is attempted, and the output directory
created in the first step is still a directory, the resolver command having removed no
directory. -/
theorem resolution_failure_fatal (E : Env) (packageName : Str) (w : World) (D : Str) (e : Err)
    (hcreate : (createOutputDirectory E packageName w).2 = .ok D)
    (hfail : (E.exec (repoqueryArgv packageName) (created E packageName w D)).err = some e) :
    (resolveDependencies E packageName (created E packageName w D)).2 = .error e ∧
    (run E packageName w).2 = .fatal (.fatalResolve packageName e) ∧
    (run E packageName w).2.exitCode = 1 ∧
    (run E packageName w).1.execLog = w.execLog ++ [repoqueryArgv packageName] ∧
    (∀ pkg, downloadArgv pkg ∉ [repoqueryArgv packageName]) ∧
    (run E packageName w).1.renameLog = w.renameLog ∧
    (normalPath w.cwd →
      (∀ p, (p, Kind.dir) ∈ (created E packageName w D).nodes →
        (p, Kind.dir) ∈
          (E.exec (repoqueryArgv packageName) (created E packageName w D)).nodes) →
      isDir (run E packageName w).1 (resolve w.cwd D) = true) := by
  have hres : (resolveDependencies E packageName (created E packageName w D)).2 = .error e := by
    rw [resolveDependencies_result, hfail]
  rw [run_of_resolve_error E packageName w D e hcreate hres]
  refine ⟨hres, rfl, rfl, resolved_execLog E packageName w D, ?_,
    resolved_renameLog E packageName w D, ?_⟩
  · intro pkg h
    simp [downloadArgv, repoqueryArgv] at h
  · intro hcwd hframe
    obtain ⟨hD, -, -, hdir⟩ := createOutputDirectory_ok E packageName w hcwd D hcreate
    apply resolved_isDir_of_frame E packageName w D hframe
    rw [hD, resolve_render _ _ (normalPath_outputPath w hcwd packageName)]
    exact hdir

/-- C4: when the resolver command succeeds with standard output `s`, `resolveDependencies`
returns `strings.Fields s`, which is the split of `s` at white space with the empty pieces
dropped: nothing else is filtered or deduplicated, every token is non-empty and free of white
space, the tokens concatenated are `s` without its white space, and an `s` of white space only
(or empty) gives the empty list. -/
theorem resolver_output_split (E : Env) (pkgName : Str) (w : World)
    (hok : (E.exec (repoqueryArgv pkgName) w).err = none) :
    (resolveDependencies E pkgName w).2 = .ok (Fields (E.exec (repoqueryArgv pkgName) w).stdout) ∧
    Fields (E.exec (repoqueryArgv pkgName) w).stdout
      = ((E.exec (repoqueryArgv pkgName) w).stdout.splitOnP isSpace).filter
          (fun t => !t.isEmpty) ∧
    (∀ t ∈ Fields (E.exec (repoqueryArgv pkgName) w).stdout,
      t ≠ [] ∧ ∀ c ∈ t, isSpace c = false) ∧
    (Fields (E.exec (repoqueryArgv pkgName) w).stdout).flatten
      = (E.exec (repoqueryArgv pkgName) w).stdout.filter (fun c => !isSpace c) ∧
    ((∀ c ∈ (E.exec (repoqueryArgv pkgName) w).stdout, isSpace c = true) →
      Fields (E.exec (repoqueryArgv pkgName) w).stdout = []) := by
  have h : (resolveDependencies E pkgName w).2
      = .ok (Fields (E.exec (repoqueryArgv pkgName) w).stdout) := by
    rw [resolveDependencies_result, hok]
  have htok : ∀ t ∈ Fields (E.exec (repoqueryArgv pkgName) w).stdout,
      t ≠ [] ∧ ∀ c ∈ t, isSpace c = false := by
    rw [Fields_eq]
    exact fieldsLoop_tokens isSpace _ none (by simp)
  have hjoin : (Fields (E.exec (repoqueryArgv pkgName) w).stdout).flatten
      = (E.exec (repoqueryArgv pkgName) w).stdout.filter (fun c => !isSpace c) := by
    rw [Fields_eq, fieldsLoop_join]
    simp
  refine ⟨h, Fields_eq_splitOnP _, htok, hjoin, ?_⟩
  intro hall
  have hnil : (E.exec (repoqueryArgv pkgName) w).stdout.filter (fun c => !isSpace c) = [] := by
    rw [List.filter_eq_nil_iff]
    intro c hc
    simp [hall c hc]
  rw [hnil] at hjoin
  rcases hF : Fields (E.exec (repoqueryArgv pkgName) w).stdout with _ | ⟨t, ts⟩
  · rfl
  · exfalso
    rw [hF] at hjoin htok
    have ht := (htok t (by simp)).1
    simp only [List.flatten_cons, List.append_eq_nil] at hjoin
    exact ht hjoin.1

theorem outputPath_normal_names (w : World) (names : List Str) (hnames : normalPath names)
    (hne : names ≠ []) :
    outputPath w ([Separator].intercalate names) = w.cwd ++ "out".toList :: names := by
  unfold outputPath
  rw [segments_intercalate names hnames hne, walk_normal _ _ hnames]
  simp

theorem render_out (cwd : Path) (hcwd : cwd ≠ []) (names : List Str) :
    render (cwd ++ "out".toList :: names)
      = render cwd ++ Separator :: [Separator].intercalate ("out".toList :: names) := by
  unfold render stringsJoin
  rw [intercalate_append _ _ _ hcwd (by simp)]
  simp

theorem pathExists_congr (w1 w2 : World) (h : w1.nodes = w2.nodes) (p : Path) :
    pathExists w1 p = pathExists w2 p := by
  simp [pathExists, isDir, isFile, h]

/-- C5 (amended): a successful `createOutputDirectory` returns the cleaned form of
`<cwd>/out/<package-name>`, the absolute path reached by walking the elements of the package
name from `<cwd>/out`, and that path is then a directory; for a package name made of one or
more ordinary path elements (not empty, not `.`, not `..`) separated by single separators
this is `<cwd>/out/<package-name>` itself. -/
theorem output_directory_path (E : Env) (w : World) (hcwd : normalPath w.cwd)
    (packageName : Str) (D : Str)
    (hcreate : (createOutputDirectory E packageName w).2 = .ok D) :
    D = render (walk (w.cwd ++ ["out".toList]) (segments packageName)) ∧
    isDir (createOutputDirectory E packageName w).1
      (walk (w.cwd ++ ["out".toList]) (segments packageName)) = true ∧
    (∀ names : List Str, normalPath names → names ≠ [] →
      packageName = [Separator].intercalate names →
      D = render (w.cwd ++ "out".toList :: names) ∧
      (w.cwd ≠ [] →
        D = render w.cwd ++ Separator :: "out".toList ++ Separator :: packageName)) := by
  obtain ⟨hD, -, -, hdir⟩ := createOutputDirectory_ok E _ w hcwd D hcreate
  refine ⟨hD, hdir, ?_⟩
  intro names hnames hne hP
  subst hP
  rw [outputPath_normal_names w names hnames hne] at hD
  refine ⟨hD, fun h => ?_⟩
  rw [hD, render_out _ h]
  obtain ⟨y, ys, rfl⟩ := List.exists_cons_of_ne_nil hne
  simp [List.intercalate]

/-- C6 (amended): when directory creation succeeds, the directory it created and returned,
which is `out/<package-name>` walked from the working directory, is still a directory when
`run` ends, whatever fails afterwards (resolution, any fetch, any move), external commands
removing no directory; for a package name made of one or more ordinary path elements (not
empty, not `.`, not `..`) separated by single separators this directory is
`<cwd>/out/<package-name>`, so `./out/<package-name>` exists at the end of the run. -/
theorem output_directory_persists (E : Env) (hE : keepsDirs E) (packageName : Str) (w : World)
    (hcwd : normalPath w.cwd) (D : Str)
    (hcreate : (createOutputDirectory E packageName w).2 = .ok D) :
    isDir (run E packageName w).1 (resolve w.cwd D) = true ∧
    resolve w.cwd D = walk (w.cwd ++ ["out".toList]) (segments packageName) ∧
    (∀ names : List Str, normalPath names → names ≠ [] →
      packageName = [Separator].intercalate names →
      resolve w.cwd D = w.cwd ++ "out".toList :: names ∧
      isDir (run E packageName w).1 (w.cwd ++ "out".toList :: names) = true) := by
  obtain ⟨hD, -, -, hdir⟩ := createOutputDirectory_ok E packageName w hcwd D hcreate
  subst hD
  have hnp := normalPath_outputPath w hcwd packageName
  have hr : resolve w.cwd (render (outputPath w packageName)) = outputPath w packageName :=
    resolve_render _ _ hnp
  have h1 : isDir (created E packageName w (render (outputPath w packageName)))
      (outputPath w packageName) = true := hdir
  have h2 := resolved_isDir E hE packageName w _ _ h1
  have hend : isDir (run E packageName w).1 (outputPath w packageName) = true := by
    rcases hres : (resolveDependencies E packageName
        (created E packageName w (render (outputPath w packageName)))).2 with e | deps
    · rw [run_of_resolve_error E packageName w _ e hcreate hres]
      exact h2
    · rw [run_of_ok E packageName w _ deps hcreate hres, moveRPMFiles_eq]
      apply moveLoop_keeps_dir E _ hnp _ (rpmEntries_normal _ _) _ _ (isPrefixOf_self _)
      exact downloadPackages_isDir E hE deps _ _ h2
  refine ⟨by rw [hr]; exact hend, hr, ?_⟩
  intro names hnames hne hP
  subst hP
  have ho := outputPath_normal_names w names hnames hne
  exact ⟨by rw [hr, ho], by rw [← ho]; exact hend⟩

/-- C7 (amended): for every output directory `D`, `moveRPMFiles` attempts exactly one rename
for every name `f` that `Glob` returns, and for no other source, with source `f` and target
`Join(D, Base(f))`; each such `f` is an entry of the working directory that `*.rpm` matches,
and when the working directory can be listed they are all such entries; `f` has no separator,
so its base name is `f`.  When `D` is the string of an absolute path `d` (as
`createOutputDirectory` returns), the target is `d/f`, and after a successful rename `d/f`
exists and, unless `d` is the working directory itself, `f` is no longer in the working
directory. -/
theorem relocation_keeps_base_names (E : Env) (outputDir : Str) (w : World) :
    (moveRPMFiles E outputDir w).2 = .done ∧
    (moveRPMFiles E outputDir w).1.renameLog
      = w.renameLog ++ (rpmEntries E w).map (fun f => (f, Join [outputDir, Base f])) ∧
    (rpmEntries E w).Nodup ∧
    (∀ f ∈ rpmEntries E w, f ∈ dirEntries w w.cwd ∧ Match "*.rpm".toList f = .ok true) ∧
    (canList E w w.cwd →
      ∀ f, f ∈ rpmEntries E w ↔ f ∈ dirEntries w w.cwd ∧ Match "*.rpm".toList f = .ok true) ∧
    (∀ f ∈ rpmEntries E w, Separator ∉ f ∧ Base f = f) ∧
    (∀ d : Path, normalPath d → outputDir = render d → ∀ f ∈ rpmEntries E w,
      Join [outputDir, Base f] = render (d ++ [f]) ∧
      ∀ w1 : World, (Rename E f (Join [outputDir, Base f]) w1).2 = none →
        pathExists (Rename E f (Join [outputDir, Base f]) w1).1 (d ++ [f]) = true ∧
        (d ≠ w1.cwd →
          pathExists (Rename E f (Join [outputDir, Base f]) w1).1 (w1.cwd ++ [f]) = false)) := by
  refine ⟨by rw [moveRPMFiles_eq], ?_, ?_, fun f hf => mem_rpmEntries E w f hf,
    fun hl f => mem_rpmEntries_iff E w hl f, ?_, ?_⟩
  · rw [moveRPMFiles_eq]
    exact moveLoop_renameLog E outputDir (rpmEntries E w) w
  · exact (globNames_nodup E w w.cwd).filter _
  · intro f hf
    have hn := rpmEntries_normal E w f hf
    exact ⟨hn.2.1, Base_normal f hn⟩
  · intro d hd hD f hf
    subst hD
    have hn := rpmEntries_normal E w f hf
    refine ⟨by rw [Base_normal f hn, Join_entry d hd f hn], ?_⟩
    intro w1 hok
    have hsrc : resolve w1.cwd f = w1.cwd ++ [f] := resolve_entry _ f hn
    have hdst : resolve w1.cwd (Join [render d, Base f]) = d ++ [f] := resolve_target _ d hd f hn
    have h := Rename_ok E f (Join [render d, Base f]) w1 hok
    rw [hsrc, hdst] at h
    obtain ⟨m1, m2⟩ := sysRename_moved w1 _ _ _ h
    refine ⟨by rw [← m1]; exact pathExists_congr _ _ rfl _, fun hne => ?_⟩
    rw [← m2 (fun hc => hne (List.append_cancel_right hc).symm)]
    exact pathExists_congr _ _ rfl _

/-- C8: a rename that fails does not stop the relocation: whatever renames the environment
lets fail, the loop over a list of matched files attempts one rename per file, in order (as
many attempts as files), and so does `moveRPMFiles` for the files matched in the working
directory, which then ends normally; a failed rename leaves the filesystem, hence the file in
the working directory, as it was. -/
theorem move_failure_not_fatal (E : Env) (outputDir : Str) (w : World) :
    (∀ files : List Str,
      (moveLoop E outputDir files w).renameLog
        = w.renameLog ++ files.map (fun f => (f, Join [outputDir, Base f])) ∧
      (moveLoop E outputDir files w).renameLog.length = w.renameLog.length + files.length) ∧
    (moveRPMFiles E outputDir w).2 = .done ∧
    (moveRPMFiles E outputDir w).1.renameLog
      = w.renameLog ++ (rpmEntries E w).map (fun f => (f, Join [outputDir, Base f])) ∧
    (∀ (oldpath newpath : Str) (w1 : World) (e : Err),
      (Rename E oldpath newpath w1).2 = some e →
      (Rename E oldpath newpath w1).1.nodes = w1.nodes ∧
      ∀ p, pathExists (Rename E oldpath newpath w1).1 p = pathExists w1 p) := by
  refine ⟨fun files => ?_, by rw [moveRPMFiles_eq], ?_, ?_⟩
  · have h := moveLoop_renameLog E outputDir files w
    refine ⟨h, ?_⟩
    rw [h]
    simp
  · rw [moveRPMFiles_eq]
    exact moveLoop_renameLog E outputDir (rpmEntries E w) w
  · intro oldpath newpath w1 e h
    have hn := Rename_failed E oldpath newpath w1 e h
    exact ⟨hn, fun p => pathExists_congr _ _ hn p⟩

/-- C9: `run` ends fatally (exit status 1) exactly when the creation of the output directory
fails or the resolution of the dependencies fails, and normally (exit status 0) otherwise,
whatever downloads and moves fail; the fatal branch of `moveRPMFiles` is never taken, because
`Match` and `Glob` return no error for the pattern `*.rpm`. -/
theorem fatal_iff_setup_fails (E : Env) (packageName : Str) (w : World) :
    ((run E packageName w).2.exitCode ≠ 0 ↔
      (∃ e, (createOutputDirectory E packageName w).2 = .error e) ∨
      (∃ D e, (createOutputDirectory E packageName w).2 = .ok D ∧
        (resolveDependencies E packageName (created E packageName w D)).2 = .error e)) ∧
    ((run E packageName w).2 = .done ↔
      ∃ D deps, (createOutputDirectory E packageName w).2 = .ok D ∧
        (resolveDependencies E packageName (created E packageName w D)).2 = .ok deps) ∧
    (∀ name, ∃ b, Match "*.rpm".toList name = .ok b) ∧
    (∀ (E1 : Env) (w1 : World), ∃ files, Glob E1 "*.rpm".toList w1 = .ok files) ∧
    (∀ (outputDir : Str) (w1 : World), (moveRPMFiles E outputDir w1).2 = .done) := by
  have key : ((run E packageName w).2 = .done ∧
      ∃ D deps, (createOutputDirectory E packageName w).2 = .ok D ∧
        (resolveDependencies E packageName (created E packageName w D)).2 = .ok deps) ∨
      ((run E packageName w).2.exitCode = 1 ∧
        ((∃ e, (createOutputDirectory E packageName w).2 = .error e) ∨
        (∃ D e, (createOutputDirectory E packageName w).2 = .ok D ∧
          (resolveDependencies E packageName (created E packageName w D)).2 = .error e))) := by
    rcases hc : (createOutputDirectory E packageName w).2 with e | D
    · right
      rw [run_of_create_error E packageName w e hc]
      exact ⟨rfl, Or.inl ⟨e, rfl⟩⟩
    · rcases hr : (resolveDependencies E packageName (created E packageName w D)).2 with e | deps
      · right
        rw [run_of_resolve_error E packageName w D e hc hr]
        exact ⟨rfl, Or.inr ⟨D, e, rfl, hr⟩⟩
      · left
        rw [run_of_ok E packageName w D deps hc hr, moveRPMFiles_eq]
        exact ⟨rfl, D, deps, rfl, hr⟩
  refine ⟨?_, ?_, fun name => ⟨_, Match_rpm_eq name⟩, fun E1 w1 => ⟨_, Glob_rpm E1 w1⟩,
    fun outputDir w1 => by rw [moveRPMFiles_eq]⟩
  · rcases key with ⟨h1, D, deps, h2, h3⟩ | ⟨h1, h2⟩
    · constructor
      · intro h
        rw [h1] at h
        exact absurd rfl h
      · rintro (⟨e, he⟩ | ⟨D1, e, hD1, he⟩)
        · rw [h2] at he
          simp at he
        · rw [h2] at hD1
          simp only [Except.ok.injEq] at hD1
          subst hD1
          rw [h3] at he
          simp at he
    · exact ⟨fun _ => h2, fun _ => by rw [h1]; decide⟩
  · rcases key with ⟨h1, h2⟩ | ⟨h1, h2⟩
    · exact ⟨fun _ => h2, fun _ => h1⟩
    · constructor
      · intro h
        rw [h] at h1
        simp [Outcome.exitCode] at h1
      · rintro ⟨D, deps, hD, hdeps⟩
        rcases h2 with ⟨e, he⟩ | ⟨D1, e, hD1, he⟩
        · rw [hD] at he
          simp at he
        · rw [hD] at hD1
          simp only [Except.ok.injEq] at hD1
          subst hD1
          rw [hdeps] at he
          simp at he

/-- C10 (amended): when `run` reaches the relocation step, every entry of the output
directory at the end either was an entry of the output directory when the relocation began
(it was there before the run, or an external command put it there), or was then an entry of
the working directory that `*.rpm` matches. -/
theorem output_entries_origin (E : Env) (packageName : Str) (w : World)
    (hcwd : normalPath w.cwd) (D : Str) (deps : List Str)
    (hcreate : (createOutputDirectory E packageName w).2 = .ok D)
    (hres : (resolveDependencies E packageName (created E packageName w D)).2 = .ok deps)
    (n : Str) (k : Kind)
    (hn : (resolve w.cwd D ++ [n], k) ∈ (run E packageName w).1.nodes) :
    (∃ k1, (resolve w.cwd D ++ [n], k1) ∈ (fetched E packageName w D deps).nodes) ∨
    (n ∈ dirEntries (fetched E packageName w D deps) w.cwd ∧
      Match "*.rpm".toList n = .ok true) := by
  obtain ⟨hD, -⟩ := createOutputDirectory_ok E packageName w hcwd D hcreate
  have hnp := normalPath_outputPath w hcwd packageName
  have hr : resolve w.cwd D = outputPath w packageName := by rw [hD, resolve_render _ _ hnp]
  rw [run_of_ok E packageName w D deps hcreate hres, moveRPMFiles_eq, hr] at hn
  rw [hr]
  have hn2 : (outputPath w packageName ++ [n], k) ∈
      (moveLoop E (render (outputPath w packageName))
        (rpmEntries E (fetched E packageName w D deps))
        (fetched E packageName w D deps)).nodes := by
    rw [← hD]
    exact hn
  rcases moveLoop_entries E _ hnp _ (rpmEntries_normal _ _) _ n k hn2 with h | h
  · exact Or.inl h
  · right
    have h1 := mem_rpmEntries E _ n h
    rw [fetched_cwd] at h1
    exact h1

/-! ## The claims at concrete inputs -/

theorem exampleEnv_keepsDirs (stdout : Str) (failing : List Str) (resolverFails : Bool) :
    keepsDirs (exampleEnv stdout failing resolverFails) := by
  intro argv w p h
  unfold exampleEnv
  simp only
  split
  · split
    · exact h
    · exact List.mem_cons_of_mem _ h
  · split <;> exact h

set_option maxRecDepth 100000 in
/-- C1 at a concrete input: for the list `a, a, b` three fetches are started, `a` twice. -/
theorem fetch_attempts_follow_list_witness :
    (downloadPackages (exampleEnv [] ["a".toList] false) ["a".toList, "a".toList, "b".toList]
      exampleWorld).execLog
      = [downloadArgv "a".toList, downloadArgv "a".toList, downloadArgv "b".toList] ∧
    (downloadPackages (exampleEnv [] ["a".toList] false) ["a".toList, "a".toList, "b".toList]
      exampleWorld).execLog.length = 3 :=
  ⟨(fetch_attempts_follow_list (exampleEnv [] ["a".toList] false)
      ["a".toList, "a".toList, "b".toList] exampleWorld).1,
    (fetch_attempts_follow_list (exampleEnv [] ["a".toList] false)
      ["a".toList, "a".toList, "b".toList] exampleWorld).2⟩

set_option maxRecDepth 100000 in
/-- C8 at a concrete input: the output directory `/w/out/foo` does not exist, so the rename of
`old.rpm` fails; it was attempted, the failure is reported, `moveRPMFiles` ends normally and
`old.rpm` is still in the working directory. -/
theorem move_failure_not_fatal_witness :
    (Rename (exampleEnv [] [] false) "old.rpm".toList "/w/out/foo/old.rpm".toList
      exampleWorld).2 = some Err.enoent ∧
    (moveRPMFiles (exampleEnv [] [] false) "/w/out/foo".toList exampleWorld).2 = .done ∧
    (moveRPMFiles (exampleEnv [] [] false) "/w/out/foo".toList exampleWorld).1.renameLog
      = [("old.rpm".toList, "/w/out/foo/old.rpm".toList)] ∧
    (moveRPMFiles (exampleEnv [] [] false) "/w/out/foo".toList exampleWorld).1.output
      = [Msg.moveFailed "old.rpm".toList "/w/out/foo".toList Err.enoent] ∧
    pathExists (Rename (exampleEnv [] [] false) "old.rpm".toList "/w/out/foo/old.rpm".toList
      exampleWorld).1 ["w".toList, "old.rpm".toList] = true := by
  have h := move_failure_not_fatal (exampleEnv [] [] false) "/w/out/foo".toList exampleWorld
  have hr := h.2.2.2 "old.rpm".toList "/w/out/foo/old.rpm".toList exampleWorld Err.enoent
    (by decide)
  exact ⟨by decide, h.2.1, h.2.2.1.trans (by decide), by decide,
    (hr.2 ["w".toList, "old.rpm".toList]).trans (by decide)⟩

set_option maxRecDepth 100000 in
/-- C9 at concrete inputs: a run in which the fetch of `b` fails and the rename of every file
succeeds ends with exit status 0; a run in which the resolver fails ends with exit status
1. -/
theorem fatal_iff_setup_fails_witness :
    (run (exampleEnv "a b".toList ["b".toList] false) "foo".toList exampleWorld).2 = .done ∧
    (run (exampleEnv [] [] true) "foo".toList exampleWorld).2.exitCode ≠ 0 :=
  ⟨(fatal_iff_setup_fails (exampleEnv "a b".toList ["b".toList] false) "foo".toList
      exampleWorld).2.1.2 ⟨"/w/out/foo".toList, ["a".toList, "b".toList], by decide, by decide⟩,
    (fatal_iff_setup_fails (exampleEnv [] [] true) "foo".toList exampleWorld).1.2
      (Or.inr ⟨"/w/out/foo".toList, Err.failed 1, by decide, by decide⟩)⟩

set_option maxRecDepth 100000 in
/-- C2 fails when the working directory cannot be opened for reading: the resolver prints
`a b c`, the fetch of `b` fails and those of `a` and `c` leave `a.rpm` and `c.rpm` in the
working directory; `Glob` ignores the error and returns nothing, so the run ends normally
without a single rename. -/
theorem fetch_failure_unreadable_directory :
    (createOutputDirectory (unreadableEnv "a b c".toList ["b".toList]) "foo".toList
      exampleWorld).2 = .ok "/w/out/foo".toList ∧
    (resolveDependencies (unreadableEnv "a b c".toList ["b".toList]) "foo".toList
      (created (unreadableEnv "a b c".toList ["b".toList]) "foo".toList exampleWorld
        "/w/out/foo".toList)).2 = .ok ["a".toList, "b".toList, "c".toList] ∧
    (downloadPackage (unreadableEnv "a b c".toList ["b".toList]) "b".toList
      (downloadPackages (unreadableEnv "a b c".toList ["b".toList]) ["a".toList]
        (resolved (unreadableEnv "a b c".toList ["b".toList]) "foo".toList exampleWorld
          "/w/out/foo".toList))).2 ≠ none ∧
    (run (unreadableEnv "a b c".toList ["b".toList]) "foo".toList exampleWorld).2 = .done ∧
    "c.rpm".toList ∈ dirEntries
      (run (unreadableEnv "a b c".toList ["b".toList]) "foo".toList exampleWorld).1
      exampleWorld.cwd ∧
    isFile (run (unreadableEnv "a b c".toList ["b".toList]) "foo".toList exampleWorld).1
      ["w".toList, "c.rpm".toList] = true ∧
    Match "*.rpm".toList "c.rpm".toList = .ok true ∧
    (run (unreadableEnv "a b c".toList ["b".toList]) "foo".toList exampleWorld).1.renameLog
      = [] := by
  decide

set_option maxRecDepth 100000 in
/-- C2 (amended) at a concrete input: the resolver prints `a b c` and the fetch of `b` fails; the
three fetches are started all the same, the run ends normally, and `c.rpm`, which the fetch
of `c` left in the working directory, is passed to a rename into `/w/out/foo`. -/
theorem fetch_failure_not_fatal_witness :
    (downloadPackage (exampleEnv "a b c".toList ["b".toList] false) "b".toList
      (downloadPackages (exampleEnv "a b c".toList ["b".toList] false) ["a".toList]
        (resolved (exampleEnv "a b c".toList ["b".toList] false) "foo".toList exampleWorld
          "/w/out/foo".toList))).2 ≠ none ∧
    (run (exampleEnv "a b c".toList ["b".toList] false) "foo".toList exampleWorld).1.execLog
      = [repoqueryArgv "foo".toList, downloadArgv "a".toList, downloadArgv "b".toList,
          downloadArgv "c".toList] ∧
    (run (exampleEnv "a b c".toList ["b".toList] false) "foo".toList exampleWorld).2 = .done ∧
    ("c.rpm".toList, Join ["/w/out/foo".toList, Base "c.rpm".toList]) ∈
      (run (exampleEnv "a b c".toList ["b".toList] false) "foo".toList exampleWorld).1.renameLog := by
  have h := fetch_failure_not_fatal (exampleEnv "a b c".toList ["b".toList] false) "foo".toList
    "a".toList "b".toList "c".toList exampleWorld "/w/out/foo".toList (by decide) (by decide)
    (by decide)
  exact ⟨by decide, h.1, h.2.1,
    h.2.2.2.2 (by decide) "c.rpm".toList (by decide) (by decide)⟩

set_option maxRecDepth 100000 in
/-- C3 at a concrete input: the resolver fails; the run ends with exit status 1 after this one
command, without any rename, and `/w/out/foo` is a directory. -/
theorem resolution_failure_fatal_witness :
    ((exampleEnv [] [] true).exec (repoqueryArgv "foo".toList)
      (created (exampleEnv [] [] true) "foo".toList exampleWorld "/w/out/foo".toList)).err
      = some (.failed 1) ∧
    (run (exampleEnv [] [] true) "foo".toList exampleWorld).2.exitCode = 1 ∧
    (run (exampleEnv [] [] true) "foo".toList exampleWorld).1.execLog
      = [repoqueryArgv "foo".toList] ∧
    (run (exampleEnv [] [] true) "foo".toList exampleWorld).1.renameLog = [] ∧
    isDir (run (exampleEnv [] [] true) "foo".toList exampleWorld).1
      (resolve exampleWorld.cwd "/w/out/foo".toList) = true := by
  have h := resolution_failure_fatal (exampleEnv [] [] true) "foo".toList exampleWorld
    "/w/out/foo".toList (.failed 1) (by decide) (by decide)
  exact ⟨by decide, h.2.2.1, h.2.2.2.1, h.2.2.2.2.2.1,
    h.2.2.2.2.2.2 (by decide) (fun p hp => exampleEnv_keepsDirs [] [] true _ _ p hp)⟩

set_option maxRecDepth 100000 in
/-- C4 at a concrete input: the output ` glibc  bash\nglibc\t` gives the three tokens `glibc`,
`bash`, `glibc`, the repeated one included. -/
theorem resolver_output_split_witness :
    ((exampleEnv " glibc  bash\nglibc\t".toList [] false).exec (repoqueryArgv "foo".toList)
      exampleWorld).err = none ∧
    (resolveDependencies (exampleEnv " glibc  bash\nglibc\t".toList [] false) "foo".toList
      exampleWorld).2 = .ok ["glibc".toList, "bash".toList, "glibc".toList] := by
  have h := resolver_output_split (exampleEnv " glibc  bash\nglibc\t".toList [] false)
    "foo".toList exampleWorld (by decide)
  exact ⟨by decide, h.1.trans (by decide)⟩

set_option maxRecDepth 100000 in
/-- C5 fails for the package name `..`: in the working directory `/w`, directory creation
succeeds and returns `/w`, which is not `/w/out/..`, does not lie under `/w/out` and does not
end in `..`; the directory `/w/out` is not even created. -/
theorem output_directory_path_dotdot :
    (createOutputDirectory (exampleEnv [] [] false) "..".toList exampleWorld).2
      = .ok "/w".toList ∧
    "/w".toList ≠ "/w/out/..".toList ∧
    List.isPrefixOf "/w/out".toList "/w".toList = false ∧
    Base "/w".toList ≠ "..".toList ∧
    isDir (createOutputDirectory (exampleEnv [] [] false) "..".toList exampleWorld).1
      ["w".toList, "out".toList] = false := by
  decide

set_option maxRecDepth 100000 in
/-- C5 (amended) at a concrete input: for the package name `lib/foo` in the working directory
`/w` the path returned is `/w/out/lib/foo`, and it is a directory afterwards. -/
theorem output_directory_path_witness :
    (createOutputDirectory (exampleEnv [] [] false) "lib/foo".toList exampleWorld).2
      = .ok "/w/out/lib/foo".toList ∧
    "/w/out/lib/foo".toList
      = render exampleWorld.cwd ++ Separator :: "out".toList ++ Separator :: "lib/foo".toList ∧
    isDir (createOutputDirectory (exampleEnv [] [] false) "lib/foo".toList exampleWorld).1
      (walk (exampleWorld.cwd ++ ["out".toList]) (segments "lib/foo".toList)) = true := by
  have h := output_directory_path (exampleEnv [] [] false) exampleWorld (by decide)
    "lib/foo".toList "/w/out/lib/foo".toList (by decide)
  exact ⟨by decide,
    (h.2.2 ["lib".toList, "foo".toList] (by decide) (by decide) (by decide)).2 (by decide),
    h.2.1⟩

set_option maxRecDepth 100000 in
/-- C6 fails for the package name `..`: in the working directory `/w`, directory creation
succeeds (it returns `/w`) and the run ends normally, but `/w/out` is not created: at the end
it is no directory and does not exist, so there is no `./out/..`. -/
theorem output_directory_dotdot_missing :
    (createOutputDirectory (exampleEnv [] [] false) "..".toList exampleWorld).2
      = .ok "/w".toList ∧
    (run (exampleEnv [] [] false) "..".toList exampleWorld).2 = .done ∧
    isDir (run (exampleEnv [] [] false) "..".toList exampleWorld).1
      ["w".toList, "out".toList] = false ∧
    pathExists (run (exampleEnv [] [] false) "..".toList exampleWorld).1
      ["w".toList, "out".toList] = false ∧
    "out".toList ∉ dirEntries (run (exampleEnv [] [] false) "..".toList exampleWorld).1
      exampleWorld.cwd := by
  decide

set_option maxRecDepth 100000 in
/-- C6 (amended) at a concrete input: the fetch of `b` fails and `/w/out/foo` is a directory at
the end of the run. -/
theorem output_directory_persists_witness :
    (createOutputDirectory (exampleEnv "a b".toList ["b".toList] false) "foo".toList
      exampleWorld).2 = .ok "/w/out/foo".toList ∧
    isDir (run (exampleEnv "a b".toList ["b".toList] false) "foo".toList exampleWorld).1
      (resolve exampleWorld.cwd "/w/out/foo".toList) = true ∧
    isDir (run (exampleEnv "a b".toList ["b".toList] false) "foo".toList exampleWorld).1
      (exampleWorld.cwd ++ "out".toList :: ["foo".toList]) = true := by
  have h := output_directory_persists (exampleEnv "a b".toList ["b".toList] false)
    (exampleEnv_keepsDirs _ _ _) "foo".toList exampleWorld (by decide) "/w/out/foo".toList
    (by decide)
  exact ⟨by decide, h.1, (h.2.2 ["foo".toList] (by decide) (by decide) (by decide)).2⟩

set_option maxRecDepth 100000 in
/-- C7 fails when the output directory is the working directory, as it is for the package name
`..`: the rename of `old.rpm` to `/w/old.rpm` succeeds (the move is reported) and `old.rpm` is
still an entry of the working directory.  It also fails when the working directory cannot be
opened for reading: `old.rpm` is an entry that `*.rpm` matches, and no rename is attempted. -/
theorem relocation_into_working_directory :
    (createOutputDirectory (exampleEnv [] [] false) "..".toList exampleWorld).2
      = .ok "/w".toList ∧
    (moveRPMFiles (exampleEnv [] [] false) "/w".toList exampleWorld).1.renameLog
      = [("old.rpm".toList, "/w/old.rpm".toList)] ∧
    (moveRPMFiles (exampleEnv [] [] false) "/w".toList exampleWorld).1.output
      = [Msg.moved "old.rpm".toList "/w".toList] ∧
    "old.rpm".toList ∈ dirEntries
      (moveRPMFiles (exampleEnv [] [] false) "/w".toList exampleWorld).1 exampleWorld.cwd ∧
    "old.rpm".toList ∈ dirEntries usedWorld usedWorld.cwd ∧
    Match "*.rpm".toList "old.rpm".toList = .ok true ∧
    (moveRPMFiles (unreadableEnv [] []) "/w/out/foo".toList usedWorld).2 = .done ∧
    (moveRPMFiles (unreadableEnv [] []) "/w/out/foo".toList usedWorld).1.renameLog = [] := by
  decide

set_option maxRecDepth 100000 in
/-- C7 (amended) at a concrete input: `old.rpm` is renamed to `/w/out/foo/old.rpm`; the rename
succeeds, after it the file is in the output directory and not in the working directory. -/
theorem relocation_keeps_base_names_witness :
    (moveRPMFiles (exampleEnv [] [] false) "/w/out/foo".toList usedWorld).1.renameLog
      = [("old.rpm".toList, "/w/out/foo/old.rpm".toList)] ∧
    (Rename (exampleEnv [] [] false) "old.rpm".toList
      (Join ["/w/out/foo".toList, Base "old.rpm".toList]) usedWorld).2 = none ∧
    pathExists (Rename (exampleEnv [] [] false) "old.rpm".toList
      (Join ["/w/out/foo".toList, Base "old.rpm".toList]) usedWorld).1
      (["w".toList, "out".toList, "foo".toList] ++ ["old.rpm".toList]) = true ∧
    pathExists (Rename (exampleEnv [] [] false) "old.rpm".toList
      (Join ["/w/out/foo".toList, Base "old.rpm".toList]) usedWorld).1
      (usedWorld.cwd ++ ["old.rpm".toList]) = false := by
  have h := relocation_keeps_base_names (exampleEnv [] [] false) "/w/out/foo".toList usedWorld
  have h5 := (h.2.2.2.2.1 (by decide) "old.rpm".toList).2 ⟨by decide, by decide⟩
  have h6 := (h.2.2.2.2.2.2 ["w".toList, "out".toList, "foo".toList] (by decide) (by decide)
    "old.rpm".toList h5).2 usedWorld (by decide)
  exact ⟨h.2.1.trans (by decide), by decide, h6.1, h6.2 (by decide)⟩

set_option maxRecDepth 100000 in
/-- C10 fails when the output directory exists before the run and holds a file: the run ends
normally and `/w/out/foo/notes.txt` is in the output directory at the end, although its name
does not match `*.rpm`. -/
theorem output_directory_foreign_file :
    (run (exampleEnv [] [] false) "foo".toList usedWorld).2 = .done ∧
    (["w".toList, "out".toList, "foo".toList, "notes.txt".toList], Kind.file) ∈
      (run (exampleEnv [] [] false) "foo".toList usedWorld).1.nodes ∧
    Match "*.rpm".toList "notes.txt".toList = .ok false := by
  decide

set_option maxRecDepth 100000 in
/-- C10 (amended) at a concrete input: `a.rpm` is in the output directory at the end of the
run, and it was an entry of the working directory matching `*.rpm` when the relocation
began. -/
theorem output_entries_origin_witness :
    (resolve usedWorld.cwd "/w/out/foo".toList ++ ["a.rpm".toList], Kind.file) ∈
      (run (exampleEnv "a".toList [] false) "foo".toList usedWorld).1.nodes ∧
    ((∃ k1, (resolve usedWorld.cwd "/w/out/foo".toList ++ ["a.rpm".toList], k1) ∈
        (fetched (exampleEnv "a".toList [] false) "foo".toList usedWorld "/w/out/foo".toList
          ["a".toList]).nodes) ∨
      ("a.rpm".toList ∈ dirEntries
          (fetched (exampleEnv "a".toList [] false) "foo".toList usedWorld "/w/out/foo".toList
            ["a".toList]) usedWorld.cwd ∧
        Match "*.rpm".toList "a.rpm".toList = .ok true)) :=
  ⟨by decide, output_entries_origin (exampleEnv "a".toList [] false) "foo".toList usedWorld
    (by decide) "/w/out/foo".toList ["a".toList] (by decide) (by decide) "a.rpm".toList Kind.file
    (by decide)⟩

end Rpmdl
